import Mathlib

/-! Verification of the sampling/scoring/metrics core of the persona_eval
repository (src/persona_eval/src/{sampling,scoring,metrics}.py).

Modelling conventions for the shallow embedding:
* Python strings are lists of characters (`Str`); string literals enter via
  `String.toList`.
* Python floats are real numbers; `float('inf')` is the top element of `EReal`.
* `str.splitlines` is modelled as splitting on the newline character (the
  texts handled by the pipeline are newline-separated).
* Regular-expression searches of the source are hand-compiled into explicit
  matching functions over character lists; `\w` and case mappings are the
  ASCII ones.
* `int(word_count / 0.75)` is modelled exactly as `4 * word_count / 3` in
  natural-number (floor) division. -/

namespace PersonaEval

/-- Python strings, modelled as lists of characters. -/
abbrev Str := List Char

/-- Whitespace characters recognised by Python `str.strip`, `str.split` and
the regex class `\s` (ASCII). -/
def pyIsSpace (c : Char) : Bool :=
  c = ' ' || c = '\t' || c = '\n' || c = '\r' || c = '\x0b' || c = '\x0c'

/-- Python `str.strip`: drop leading and trailing whitespace. -/
def pyStrip (s : Str) : Str :=
  ((s.dropWhile pyIsSpace).reverse.dropWhile pyIsSpace).reverse

/-- The ASCII upper/lower letter pairs. -/
def asciiCasePairs : List (Char × Char) :=
  [('A', 'a'), ('B', 'b'), ('C', 'c'), ('D', 'd'), ('E', 'e'), ('F', 'f'),
   ('G', 'g'), ('H', 'h'), ('I', 'i'), ('J', 'j'), ('K', 'k'), ('L', 'l'),
   ('M', 'm'), ('N', 'n'), ('O', 'o'), ('P', 'p'), ('Q', 'q'), ('R', 'r'),
   ('S', 's'), ('T', 't'), ('U', 'u'), ('V', 'v'), ('W', 'w'), ('X', 'x'),
   ('Y', 'y'), ('Z', 'z')]

/-- ASCII lower-casing of one character. -/
def asciiLower (c : Char) : Char :=
  match asciiCasePairs.find? (fun p => p.1 = c) with
  | some p => p.2
  | none => c

/-- ASCII upper-casing of one character. -/
def asciiUpper (c : Char) : Char :=
  match asciiCasePairs.find? (fun p => p.2 = c) with
  | some p => p.1
  | none => c

/-- Python `str.lower` (ASCII case mapping). -/
def pyLower (s : Str) : Str := s.map asciiLower

/-- Python `str.upper` (ASCII case mapping). -/
def pyUpper (s : Str) : Str := s.map asciiUpper

/-- Worker for `pySplitlines`; never returns the empty list.  A final
newline closes the last line without opening a new one. -/
def pySplitlinesGo : Str → List Str
  | [] => [[]]
  | c :: cs =>
    if c = '\n' then
      match cs with
      | [] => [[]]
      | _ :: _ => [] :: pySplitlinesGo cs
    else
      match pySplitlinesGo cs with
      | [] => [[c]]
      | l :: ls => (c :: l) :: ls

/-- Python `str.splitlines`, for newline-separated text: the empty string has
no lines, and a trailing newline does not produce a trailing empty line. -/
def pySplitlines (s : Str) : List Str :=
  if s = [] then [] else pySplitlinesGo s

/-- Python `"\n".join`. -/
def joinNL : List Str → Str
  | [] => []
  | [l] => l
  | l :: l2 :: ls => l ++ '\n' :: joinNL (l2 :: ls)

/-- Worker for `pySplitWs`: accumulates the current word reversed. -/
def pySplitWsAux : Str → Str → List Str
  | w, [] => if w = [] then [] else [w.reverse]
  | w, c :: cs =>
    if pyIsSpace c then
      if w = [] then pySplitWsAux [] cs else w.reverse :: pySplitWsAux [] cs
    else pySplitWsAux (c :: w) cs

/-- Python `str.split()` with no argument: split on whitespace runs, dropping
empty pieces. -/
def pySplitWs (s : Str) : List Str := pySplitWsAux [] s

/-- Boolean test that `needle` is a prefix of `hay`. -/
def isPrefixOfStr : Str → Str → Bool
  | [], _ => true
  | _ :: _, [] => false
  | a :: as, b :: bs => a = b && isPrefixOfStr as bs

/-- Python substring containment `needle in hay`. -/
def containsSub (hay needle : Str) : Bool :=
  match hay with
  | [] => isPrefixOfStr needle []
  | _ :: rest => isPrefixOfStr needle hay || containsSub rest needle

/-- The last `n` elements of a list (Python `l[-n:]`). -/
def lastN (n : ℕ) (l : List α) : List α := l.drop (l.length - n)

/-! ### scoring.py -/

/-- Source: `score_mcq_answer` (scoring.py:187-205).  An unset
(`None`/empty) correct letter or an empty predicted letter yields `false`;
otherwise the upper-cased letters are compared. -/
def score_mcq_answer (predicted_letter : Str) (correct_letter : Option Str) : Bool :=
  match correct_letter with
  | none => false
  | some cl =>
    if cl = [] then false
    else if predicted_letter = [] then false
    else pyUpper predicted_letter == pyUpper cl

/-- Source: the judge-reply parsing of `judge_open_answer_correct`
(scoring.py:153-165), as a function of the judge model's reply text. -/
def judge_reply_is_correct (response_text : Str) : Bool :=
  let cleaned := pyLower (pyStrip response_text)
  if cleaned = "correct".toList then true
  else if cleaned = "incorrect".toList then false
  else if containsSub cleaned ("correct".toList)
          && !containsSub cleaned ("incorrect".toList) then true
  else false

/-! ### sampling.py: token estimate -/

/-- Source: `approximate_token_count` (sampling.py:124-145).
`int(word_count / 0.75)` is floor division `4 * word_count / 3` and
`int(char_count / 4)` is `char_count / 4`. -/
def approximate_token_count (text : Str) : ℕ :=
  if text = [] then 0
  else
    let word_count := (pySplitWs text).length
    let char_count := text.length
    let word_based := if 0 < word_count then 4 * word_count / 3 else 0
    let char_based := char_count / 4
    max 1 ((word_based + char_based) / 2)

/-! ### sampling.py: regex matchers

The four patterns of `parse_answer_mcq_short_format` and the line patterns of
`split_reasoning_and_final_answer` are hand-compiled.  A pattern of the shape
`...([A-J])\)?\b` matches at a position iff the optional closers are followed
by a word boundary under some choice of the optional parts; since `)` and `"`
are not word characters this is equivalent to the next character after the
captured letter not being a word character. -/

/-- The regex class `\w` (ASCII). -/
def isWordChar (c : Char) : Bool := c.isAlphanum || c = '_'

/-- The regex class `[A-J]`. -/
def isLetterAJ (c : Char) : Bool := 'A' ≤ c && c ≤ 'J'

/-- Holds when the string does not begin with a word character, i.e. a word
boundary sits right before it after a word character. -/
def noWordAhead : Str → Bool
  | [] => true
  | c :: _ => !isWordChar c

/-- Match a literal string at the front, returning the remainder. -/
def matchLit : Str → Str → Option Str
  | [], s => some s
  | _ :: _, [] => none
  | l :: ls, c :: cs => if c = l then matchLit ls cs else none

/-- Match the tail `\s*[:\-]?\s*\(?([A-J])\)?\b` of the short-format
patterns (with an optional quote, for the quoted variant, matching
`\s*[:\-]?\s*\"?\(?([A-J])\)?\"?\b`), returning the captured letter. -/
def tailLetterMatch (quoted : Bool) (s : Str) : Option Char :=
  let s1 := s.dropWhile pyIsSpace
  let s2 := match s1 with
    | ':' :: r => r
    | '-' :: r => r
    | _ => s1
  let s3 := s2.dropWhile pyIsSpace
  let s4 := if quoted then (match s3 with | '"' :: r => r | _ => s3) else s3
  let s5 := match s4 with
    | '(' :: r => r
    | _ => s4
  match s5 with
  | c :: rest => if isLetterAJ c && noWordAhead rest then some c else none
  | [] => none

/-- Match `[xy]<lit>` then the letter tail at the front of `s`. -/
def matchHeadAt (x y : Char) (lit : Str) (quoted : Bool) (s : Str) : Option Char :=
  match s with
  | c :: r =>
    if c = x || c = y then (matchLit lit r).bind (tailLetterMatch quoted) else none
  | [] => none

/-- Pattern `[Tt]he correct answer is\s*[:\-]?\s*\(?([A-J])\)?\b` at a position. -/
def matchShortP1At (s : Str) : Option Char :=
  matchHeadAt 'T' 't' ("he correct answer is".toList) false s

/-- Pattern `[Tt]he correct answer is\s*[:\-]?\s*\"?\(?([A-J])\)?\"?\b` at a position. -/
def matchShortP2At (s : Str) : Option Char :=
  matchHeadAt 'T' 't' ("he correct answer is".toList) true s

/-- Pattern `[Cc]orrect answer\s*[:\-]?\s*\(?([A-J])\)?\b` at a position. -/
def matchShortP3At (s : Str) : Option Char :=
  matchHeadAt 'C' 'c' ("orrect answer".toList) false s

/-- Pattern `[Aa]nswer\s*[:\-]?\s*\(?([A-J])\)?\b` at a position. -/
def matchShortP4At (s : Str) : Option Char :=
  matchHeadAt 'A' 'a' ("nswer".toList) false s

/-- `re.search`: try the positional matcher at every position, leftmost
first (including the empty suffix). -/
def searchAt (m : Str → Option α) : Str → Option α
  | [] => m []
  | s@(_ :: rest) =>
    match m s with
    | some c => some c
    | none => searchAt m rest

/-- Worker for `findStandalone`, tracking whether the previous character was
a word character. -/
def findStandaloneFrom (prevWord : Bool) : Str → Option Char
  | [] => none
  | c :: rest =>
    if isLetterAJ c && !prevWord && noWordAhead rest then some c
    else findStandaloneFrom (isWordChar c) rest

/-- `re.search(r"\b([A-J])\b", line)`: leftmost standalone letter A-J. -/
def findStandalone (line : Str) : Option Char := findStandaloneFrom false line

/-- Scan lines in the given order for a standalone letter. -/
def scanLinesForLetter : List Str → Option Char
  | [] => none
  | l :: rest =>
    match findStandalone l with
    | some c => some c
    | none => scanLinesForLetter rest

/-- Source: `parse_answer_mcq_short_format` (sampling.py:20-52).  The four
patterns are tried in order on the stripped text; if none matches, the last
up-to-3 lines are scanned in reverse for a standalone letter A-J. -/
def parse_answer_mcq_short_format (text : Str) : Str :=
  let cleaned := pyStrip text
  match searchAt matchShortP1At cleaned with
  | some c => [asciiUpper c]
  | none =>
  match searchAt matchShortP2At cleaned with
  | some c => [asciiUpper c]
  | none =>
  match searchAt matchShortP3At cleaned with
  | some c => [asciiUpper c]
  | none =>
  match searchAt matchShortP4At cleaned with
  | some c => [asciiUpper c]
  | none =>
    let ls := pySplitlines cleaned
    let last_lines := if 3 ≤ ls.length then lastN 3 ls else ls
    match scanLinesForLetter last_lines.reverse with
    | some c => [asciiUpper c]
    | none => []

/-! ### sampling.py: reasoning/final-answer split -/

/-- Pattern `[Ff]inal answer\s*[:\-]` at a position. -/
def matchFinalMarkAt (s : Str) : Bool :=
  match s with
  | c :: r =>
    if c = 'F' || c = 'f' then
      match matchLit ("inal answer".toList) r with
      | some r2 =>
        match r2.dropWhile pyIsSpace with
        | d :: _ => d = ':' || d = '-'
        | [] => false
      | none => false
    else false
  | [] => false

/-- Pattern `[Tt]he correct answer is` at a position. -/
def matchCorrectMarkAt (s : Str) : Bool :=
  match s with
  | c :: r =>
    if c = 'T' || c = 't' then (matchLit ("he correct answer is".toList) r).isSome
    else false
  | [] => false

/-- `re.search` for a Boolean positional matcher. -/
def searchBool (m : Str → Bool) : Str → Bool
  | [] => m []
  | s@(_ :: rest) => m s || searchBool m rest

/-- `re.search(r"[Ff]inal answer\s*[:\-]", line)` succeeds. -/
def lineHasFinalMark (line : Str) : Bool := searchBool matchFinalMarkAt line

/-- `re.search(r"[Tt]he correct answer is", line)` succeeds. -/
def lineHasCorrectMark (line : Str) : Bool := searchBool matchCorrectMarkAt line

/-- The loop of `split_reasoning_and_final_answer`: find the first line
satisfying `p` and return the lines strictly before it together with it. -/
def firstSplitAt (p : Str → Bool) : List Str → Option (List Str × Str)
  | [] => none
  | l :: ls =>
    if p l then some ([], l)
    else
      match firstSplitAt p ls with
      | some (pre, fl) => some (l :: pre, fl)
      | none => none

/-- Source: `split_reasoning_and_final_answer` (sampling.py:148-180).
Returns `(reasoning_text, final_line)`. -/
def split_reasoning_and_final_answer (text : Str) : Str × Str :=
  let lines := pySplitlines (pyStrip text)
  match firstSplitAt lineHasFinalMark lines with
  | some (pre, fl) => (pyStrip (joinNL pre), fl)
  | none =>
    match firstSplitAt lineHasCorrectMark lines with
    | some (pre, fl) => (pyStrip (joinNL pre), fl)
    | none => (pyStrip (joinNL lines), [])

/-! ### metrics.py -/

/-- Source: `compute_confidence_interval` (metrics.py:16-50).  The float-keyed
`z_scores` dictionary lookup with default `1.96` becomes a chain of equality
tests. -/
noncomputable def compute_confidence_interval (accuracy : ℝ) (n_samples : ℕ)
    (confidence : ℝ) : ℝ × ℝ :=
  if n_samples = 0 then (0, 0)
  else
    let acc := max 0 (min 1 accuracy)
    let z : ℝ :=
      if confidence = 0.90 then 1.645
      else if confidence = 0.95 then 1.96
      else if confidence = 0.99 then 2.576
      else 1.96
    let n : ℝ := (n_samples : ℝ)
    let denominator := 1 + z * z / n
    let center := (acc + z * z / (2 * n)) / denominator
    let spread :=
      z * Real.sqrt (acc * (1 - acc) / n + z * z / (4 * n * n)) / denominator
    (max 0 (center - spread), min 1 (center + spread))

/-- One scored response record, with the fields `compute_metrics` reads
(scoring.py adds `is_correct`/`is_refusal` to the sampling rows).  The
`question_id` is already a string (`str(row["question_id"])`) and the token
estimate is the natural number produced by `approximate_token_count`. -/
structure ScoredRow where
  dataset : String
  model_id : String
  condition_id : String
  question_id : String
  subject : Option String
  difficulty : Option String
  is_correct : Bool
  is_refusal : Bool
  reasoning_token_estimate : ℕ
deriving DecidableEq, Repr

/-- Full grouping key `(dataset, model_id, condition_id, question_id)`. -/
abbrev GroupKey := String × String × String × String

/-- Aggregation key `(dataset, model_id, condition_id)`. -/
abbrev AggKey := String × String × String

/-- The grouping key of a record (metrics.py:79-84). -/
def groupKeyOf (r : ScoredRow) : GroupKey :=
  (r.dataset, r.model_id, r.condition_id, r.question_id)

/-- The aggregation key of a record. -/
def aggKeyOf (r : ScoredRow) : AggKey := (r.dataset, r.model_id, r.condition_id)

/-- Drop the question id from a grouping key (metrics.py:104-105). -/
def aggOfKey (k : GroupKey) : AggKey := (k.1, k.2.1, k.2.2.1)

/-- Insert one record into the insertion-ordered group dictionary: append to
the bucket of its key, or append a new singleton bucket at the end. -/
def addToGroups : List (GroupKey × List ScoredRow) → ScoredRow →
    List (GroupKey × List ScoredRow)
  | [], r => [(groupKeyOf r, [r])]
  | (k, b) :: gs, r =>
    if k = groupKeyOf r then (k, b ++ [r]) :: gs else (k, b) :: addToGroups gs r

/-- The `defaultdict(list)` grouping loop of `compute_metrics`
(metrics.py:77-85). -/
def buildGroups (rows : List ScoredRow) : List (GroupKey × List ScoredRow) :=
  rows.foldl addToGroups []

/-- The per-aggregate-key statistics accumulated by `compute_metrics`
(metrics.py:88-139).  The `subjects` and `difficulties` dictionaries map a
label to its running `(correct, total)` pair, in insertion order. -/
structure QStats where
  num_questions : ℕ
  num_correct_answers : ℕ
  num_samples : ℕ
  num_refusals : ℕ
  sum_reasoning_tokens : ℕ
  num_with_all_correct : ℕ
  num_with_ge_23_correct : ℕ
  num_with_ge_13_correct : ℕ
  subjects : List (String × (ℕ × ℕ))
  difficulties : List (String × (ℕ × ℕ))
deriving DecidableEq, Repr

/-- The fresh entry produced by the `defaultdict` at metrics.py:88-101. -/
def QStats.zero : QStats := ⟨0, 0, 0, 0, 0, 0, 0, 0, [], []⟩

/-- Add `(c, t)` to the running pair of label `s`, appending a new entry if
the label is absent (a `defaultdict` keyed by strings). -/
def bumpLabel : List (String × (ℕ × ℕ)) → String → ℕ → ℕ →
    List (String × (ℕ × ℕ))
  | [], s, c, t => [(s, (c, t))]
  | (s0, p) :: rest, s, c, t =>
    if s0 = s then (s0, (p.1 + c, p.2 + t)) :: rest
    else (s0, p) :: bumpLabel rest s c t

/-- The guarded update `if subject: ...` (metrics.py:124-131): `None` and the
empty string are falsy and tracked under no label. -/
def maybeBumpLabel (d : List (String × (ℕ × ℕ))) (lab : Option String)
    (c t : ℕ) : List (String × (ℕ × ℕ)) :=
  match lab with
  | some s => if s = "" then d else bumpLabel d s c t
  | none => d

/-- `sum(1 for r in rows if r.get("is_correct", False))`. -/
def bucketCorrect (b : List ScoredRow) : ℕ := b.countP (fun r => r.is_correct)

/-- `sum(1 for r in rows if r.get("is_refusal", False))`. -/
def bucketRefusals (b : List ScoredRow) : ℕ := b.countP (fun r => r.is_refusal)

/-- `sum(r.get("reasoning_token_estimate", 0) for r in rows)`. -/
def bucketTokens (b : List ScoredRow) : ℕ :=
  (b.map (fun r => r.reasoning_token_estimate)).sum

/-- `rows[0].get("subject") if rows else None` (metrics.py:113). -/
def bucketSubject (b : List ScoredRow) : Option String :=
  match b with
  | [] => none
  | r :: _ => r.subject

/-- `rows[0].get("difficulty") if rows else None` (metrics.py:114). -/
def bucketDifficulty (b : List ScoredRow) : Option String :=
  match b with
  | [] => none
  | r :: _ => r.difficulty

/-- Fold one question group into its aggregate entry (metrics.py:107-139). -/
def addGroupToStats (q : QStats) (b : List ScoredRow) : QStats :=
  let correct_count := bucketCorrect b
  let total_samples := b.length
  { num_questions := q.num_questions + 1
    num_correct_answers := q.num_correct_answers + correct_count
    num_samples := q.num_samples + total_samples
    num_refusals := q.num_refusals + bucketRefusals b
    sum_reasoning_tokens := q.sum_reasoning_tokens + bucketTokens b
    num_with_all_correct :=
      q.num_with_all_correct + (if correct_count = total_samples then 1 else 0)
    num_with_ge_23_correct :=
      q.num_with_ge_23_correct +
        (if min 23 total_samples ≤ correct_count then 1 else 0)
    num_with_ge_13_correct :=
      q.num_with_ge_13_correct +
        (if min 13 total_samples ≤ correct_count then 1 else 0)
    subjects := maybeBumpLabel q.subjects (bucketSubject b) correct_count total_samples
    difficulties :=
      maybeBumpLabel q.difficulties (bucketDifficulty b) correct_count total_samples }

/-- Route one group to its aggregate key's entry in the insertion-ordered
statistics dictionary, creating a fresh zero entry on first sight. -/
def addGroupEntry : List (AggKey × QStats) → GroupKey × List ScoredRow →
    List (AggKey × QStats)
  | [], (k, b) => [(aggOfKey k, addGroupToStats QStats.zero b)]
  | (a, q) :: qs, (k, b) =>
    if a = aggOfKey k then (a, addGroupToStats q b) :: qs
    else (a, q) :: addGroupEntry qs (k, b)

/-- The aggregation loop over groups (metrics.py:103-139). -/
def buildQuestionStats (gs : List (GroupKey × List ScoredRow)) :
    List (AggKey × QStats) :=
  gs.foldl addGroupEntry []

/-- One summary row of `compute_metrics` (metrics.py:187-205). -/
structure SummaryRow where
  dataset : String
  model_id : String
  condition_id : String
  num_questions : ℕ
  num_samples : ℕ
  mean_accuracy : ℝ
  accuracy_ci_lower : ℝ
  accuracy_ci_upper : ℝ
  mean_refusal_rate : ℝ
  mean_reasoning_tokens : ℝ
  frac_questions_all_samples_correct : ℝ
  frac_questions_ge_23_correct : ℝ
  frac_questions_ge_13_correct : ℝ
  subject_accuracies : List (String × ℝ)
  difficulty_accuracies : List (String × ℝ)

/-- Per-label accuracies (metrics.py:176-185): labels with positive totals
map to `correct / total`. -/
noncomputable def labelAccuracies (d : List (String × (ℕ × ℕ))) :
    List (String × ℝ) :=
  d.filterMap (fun st =>
    if 0 < st.2.2 then some (st.1, (st.2.1 : ℝ) / (st.2.2 : ℝ)) else none)

/-- Build one summary row from an aggregate entry (metrics.py:144-205). -/
noncomputable def mkSummaryRow (a : AggKey) (q : QStats) : SummaryRow :=
  let mean_accuracy : ℝ := (q.num_correct_answers : ℝ) / (q.num_samples : ℝ)
  let ci := compute_confidence_interval mean_accuracy q.num_samples 0.95
  { dataset := a.1
    model_id := a.2.1
    condition_id := a.2.2
    num_questions := q.num_questions
    num_samples := q.num_samples
    mean_accuracy := mean_accuracy
    accuracy_ci_lower := ci.1
    accuracy_ci_upper := ci.2
    mean_refusal_rate := (q.num_refusals : ℝ) / (q.num_samples : ℝ)
    mean_reasoning_tokens := (q.sum_reasoning_tokens : ℝ) / (q.num_samples : ℝ)
    frac_questions_all_samples_correct :=
      if 0 < q.num_questions then
        (q.num_with_all_correct : ℝ) / (q.num_questions : ℝ)
      else 0
    frac_questions_ge_23_correct :=
      if 0 < q.num_questions then
        (q.num_with_ge_23_correct : ℝ) / (q.num_questions : ℝ)
      else 0
    frac_questions_ge_13_correct :=
      if 0 < q.num_questions then
        (q.num_with_ge_13_correct : ℝ) / (q.num_questions : ℝ)
      else 0
    subject_accuracies := labelAccuracies q.subjects
    difficulty_accuracies := labelAccuracies q.difficulties }

/-- Source: `compute_metrics` (metrics.py:53-207).  The
`num_samples_per_question` argument is accepted and, as in the source, never
used.  Entries with zero samples are skipped (metrics.py:149-150). -/
noncomputable def compute_metrics (scored_rows : List ScoredRow)
    (num_samples_per_question : ℕ) : List SummaryRow :=
  (buildQuestionStats (buildGroups scored_rows)).filterMap
    (fun aq => if aq.2.num_samples = 0 then none else some (mkSummaryRow aq.1 aq.2))

/-- One output row of `compute_condition_comparison` (metrics.py:236-254).
`relative_accuracy` lives in `EReal` because the source can produce
`float('inf')`. -/
structure ComparisonRow where
  dataset : String
  model_id : String
  condition_id : String
  mean_accuracy : ℝ
  delta_accuracy : ℝ
  relative_accuracy : EReal
  baseline_accuracy : ℝ

/-- Python dict assignment `baseline_metrics[key] = row`: replace in place or
append at the end. -/
def insertBaseline : List ((String × String) × SummaryRow) →
    (String × String) → SummaryRow → List ((String × String) × SummaryRow)
  | [], k, v => [(k, v)]
  | (k0, v0) :: rest, k, v =>
    if k0 = k then (k0, v) :: rest else (k0, v0) :: insertBaseline rest k v

/-- The baseline-indexing loop of `compute_condition_comparison`
(metrics.py:225-229). -/
def buildBaselineIndex (rows : List SummaryRow) (baseline_condition_id : String) :
    List ((String × String) × SummaryRow) :=
  rows.foldl
    (fun m r =>
      if r.condition_id = baseline_condition_id then
        insertBaseline m (r.dataset, r.model_id) r
      else m)
    []

/-- Dictionary lookup `baseline_metrics.get(key)`. -/
def lookupIndex (m : List ((String × String) × SummaryRow))
    (k : String × String) : Option SummaryRow :=
  match m with
  | [] => none
  | (k0, v) :: rest => if k0 = k then some v else lookupIndex rest k

/-- Build one comparison row (metrics.py:236-254). -/
noncomputable def comparisonOf (baseline : Option SummaryRow) (row : SummaryRow) :
    ComparisonRow :=
  match baseline with
  | some b =>
    { dataset := row.dataset
      model_id := row.model_id
      condition_id := row.condition_id
      mean_accuracy := row.mean_accuracy
      delta_accuracy := row.mean_accuracy - b.mean_accuracy
      relative_accuracy :=
        if 0 < b.mean_accuracy then ((row.mean_accuracy / b.mean_accuracy : ℝ) : EReal)
        else (⊤ : EReal)
      baseline_accuracy := b.mean_accuracy }
  | none =>
    { dataset := row.dataset
      model_id := row.model_id
      condition_id := row.condition_id
      mean_accuracy := row.mean_accuracy
      delta_accuracy := 0
      relative_accuracy := ((1 : ℝ) : EReal)
      baseline_accuracy := row.mean_accuracy }

/-- Source: `compute_condition_comparison` (metrics.py:210-258). -/
noncomputable def compute_condition_comparison (summary_rows : List SummaryRow)
    (baseline_condition_id : String) : List ComparisonRow :=
  let baseline_metrics := buildBaselineIndex summary_rows baseline_condition_id
  summary_rows.map (fun row =>
    comparisonOf (lookupIndex baseline_metrics (row.dataset, row.model_id)) row)

/-! ### Canonical (order-independent) views used to state the claims -/

/-- Keep the first occurrence of each element (the key order of a Python
dict). -/
def dedupFirst [DecidableEq α] : List α → List α
  | [] => []
  | a :: l => a :: (dedupFirst l).filter (fun x => x ≠ a)

/-- All records of one question group, in input order. -/
def bucketIn (rows : List ScoredRow) (k : GroupKey) : List ScoredRow :=
  rows.filter (fun r => groupKeyOf r = k)

/-- The distinct question keys of one aggregate key, in first-occurrence
order. -/
def questionKeysIn (rows : List ScoredRow) (a : AggKey) : List GroupKey :=
  (dedupFirst (rows.map groupKeyOf)).filter (fun k => aggOfKey k = a)

/-- Number of correct samples of one question. -/
def correctOfKey (rows : List ScoredRow) (k : GroupKey) : ℕ :=
  bucketCorrect (bucketIn rows k)

/-- Number of samples of one question. -/
def totalOfKey (rows : List ScoredRow) (k : GroupKey) : ℕ :=
  (bucketIn rows k).length

/-- The aggregate key of a summary row. -/
def summaryKeyOf (s : SummaryRow) : AggKey := (s.dataset, s.model_id, s.condition_id)

/-- First summary row with the given aggregate key. -/
def lookupSummary : List SummaryRow → AggKey → Option SummaryRow
  | [], _ => none
  | s :: rest, a => if summaryKeyOf s = a then some s else lookupSummary rest a

/-- Association-list lookup for string-keyed dictionaries. -/
def alistLookup {β : Type} : List (String × β) → String → Option β
  | [], _ => none
  | (s0, v) :: rest, s => if s0 = s then some v else alistLookup rest s

/-- Python `==` on two summary rows: all scalar fields equal and the two
label dictionaries equal as maps (Python dict equality ignores insertion
order). -/
def SummaryRowEquiv (s t : SummaryRow) : Prop :=
  s.dataset = t.dataset ∧ s.model_id = t.model_id ∧ s.condition_id = t.condition_id ∧
  s.num_questions = t.num_questions ∧ s.num_samples = t.num_samples ∧
  s.mean_accuracy = t.mean_accuracy ∧ s.accuracy_ci_lower = t.accuracy_ci_lower ∧
  s.accuracy_ci_upper = t.accuracy_ci_upper ∧
  s.mean_refusal_rate = t.mean_refusal_rate ∧
  s.mean_reasoning_tokens = t.mean_reasoning_tokens ∧
  s.frac_questions_all_samples_correct = t.frac_questions_all_samples_correct ∧
  s.frac_questions_ge_23_correct = t.frac_questions_ge_23_correct ∧
  s.frac_questions_ge_13_correct = t.frac_questions_ge_13_correct ∧
  (∀ lab, alistLookup s.subject_accuracies lab = alistLookup t.subject_accuracies lab) ∧
  (∀ lab, alistLookup s.difficulty_accuracies lab = alistLookup t.difficulty_accuracies lab)

/-- Lift `SummaryRowEquiv` to optional rows. -/
def optionalRowEquiv : Option SummaryRow → Option SummaryRow → Prop
  | none, none => True
  | some s, some t => SummaryRowEquiv s t
  | _, _ => False

/-- Records of the same question group carry the same subject and difficulty
(true of the pipeline, where both come from the question itself). -/
def labelsAgree (rows : List ScoredRow) : Prop :=
  ∀ r ∈ rows, ∀ r2 ∈ rows, groupKeyOf r = groupKeyOf r2 →
    r.subject = r2.subject ∧ r.difficulty = r2.difficulty

/-! ### Spec-side definitions, used only to state refuted claims -/

/-- Modelled from the spec: a line "matching `final answer:`
(case-insensitive)", read as the lower-cased line containing
`"final answer:"`. -/
def specLineMatchesFinalAnswerCI (line : Str) : Bool :=
  containsSub (pyLower line) ("final answer:".toList)

/-- Single spaces between words, nothing at the ends. -/
def joinSp : List Str → Str
  | [] => []
  | [w] => w
  | w :: w2 :: ws => w ++ ' ' :: joinSp (w2 :: ws)

/-- Modelled from the spec: a text with "no extra whitespace" is one that is
exactly its words joined by single spaces. -/
def specNoExtraWhitespace (t : Str) : Bool := t == joinSp (pySplitWs t)

/-- Modelled from the spec: the hypothesis of the short-format fallback
claim, "the last 3 non-empty lines contain no standalone letter token
A-J". -/
def specLastNonEmptyLinesLetterFree (text : Str) : Bool :=
  (lastN 3 ((pySplitlines (pyStrip text)).filter (fun l => l ≠ []))).all
    (fun l => (findStandalone l).isNone)

/-- Lookup of a group bucket in the insertion-ordered group dictionary. -/
def findBucket : List (GroupKey × List ScoredRow) → GroupKey →
    Option (List ScoredRow)
  | [], _ => none
  | (k0, b) :: gs, k => if k0 = k then some b else findBucket gs k

/-- Lookup of an aggregate entry in the statistics dictionary. -/
def findStats : List (AggKey × QStats) → AggKey → Option QStats
  | [], _ => none
  | (a0, q) :: qs, a => if a0 = a then some q else findStats qs a

/-- The statistics of a list of question groups, folded from zero. -/
def statsOfGroups (gsa : List (GroupKey × List ScoredRow)) : QStats :=
  gsa.foldl (fun q g => addGroupToStats q g.2) QStats.zero

/-- The label-dictionary fold of a list of question groups, parameterized by
the label selector (subject or difficulty). -/
def foldLabel (labOf : List ScoredRow → Option String)
    (gsa : List (GroupKey × List ScoredRow))
    (d0 : List (String × (ℕ × ℕ))) : List (String × (ℕ × ℕ)) :=
  gsa.foldl (fun d g => maybeBumpLabel d (labOf g.2) (bucketCorrect g.2) g.2.length) d0

/-- One record of the 25-sample robustness example: a correct sample. -/
def c3RowCorrect : ScoredRow :=
  ⟨"d", "m", "c", "q", none, none, true, false, 0⟩

/-- One record of the 25-sample robustness example: an incorrect sample. -/
def c3RowWrong : ScoredRow :=
  ⟨"d", "m", "c", "q", none, none, false, false, 0⟩

/-- The 25-sample example: one question with exactly 23 correct samples. -/
def c3Rows : List ScoredRow :=
  List.replicate 23 c3RowCorrect ++ List.replicate 2 c3RowWrong

/-- The aggregate key of the 25-sample example. -/
def c3Key : AggKey := ("d", "m", "c")

/-- The summary row that `compute_metrics` produces for the 25-sample
example: one question, 23 of 25 samples correct. -/
noncomputable def exampleRow25 : SummaryRow :=
  mkSummaryRow c3Key ⟨1, 23, 25, 0, 0, 0, 1, 1, [], []⟩

/-- A single correct record of dataset "a" (order-dependence example). -/
def c1RowA : ScoredRow :=
  ⟨"a", "m", "c", "q", none, none, true, false, 0⟩

/-- A single correct record of dataset "b" (order-dependence example). -/
def c1RowB : ScoredRow :=
  ⟨"b", "m", "c", "q", none, none, true, false, 0⟩

/-- A summary row with all statistics blank except identity and accuracy;
used to run the comparison engine on concrete inputs. -/
noncomputable def plainSummaryRow (d m c : String) (acc : ℝ) : SummaryRow :=
  { dataset := d
    model_id := m
    condition_id := c
    num_questions := 1
    num_samples := 1
    mean_accuracy := acc
    accuracy_ci_lower := 0
    accuracy_ci_upper := 0
    mean_refusal_rate := 0
    mean_reasoning_tokens := 0
    frac_questions_all_samples_correct := 0
    frac_questions_ge_23_correct := 0
    frac_questions_ge_13_correct := 0
    subject_accuracies := []
    difficulty_accuracies := [] }

/-! ## Theorems -/

/-- C4: for a question whose correct option letter is set (non-empty), the
MCQ scorer returns `true` exactly when the predicted letter equals the
correct letter after upper-casing both (case-insensitive exact match), and an
empty predicted letter is scored incorrect (the function is total, so no
error is possible). -/
theorem C4_mcq_scoring (pred cl : Str) (h : cl ≠ []) :
    (score_mcq_answer pred (some cl) = true ↔ pyUpper pred = pyUpper cl) ∧
    score_mcq_answer [] (some cl) = false := by
  constructor
  · by_cases hp : pred = []
    · subst hp
      simp only [score_mcq_answer, if_neg h, if_pos rfl]
      constructor
      · intro hfalse; cases hfalse
      · intro heq
        exfalso
        have hnil : cl = [] := by
          have := heq.symm
          simpa [pyUpper, List.map_eq_nil_iff] using this
        exact h hnil
    · simp [score_mcq_answer, h, hp]
  · simp [score_mcq_answer, h]

/-- Witness for `C4_mcq_scoring` at predicted letter `"b"` and correct
letter `"B"`. -/
theorem C4_mcq_scoring_witness :
    (score_mcq_answer ("b".toList) (some ("B".toList)) = true ↔
      pyUpper ("b".toList) = pyUpper ("B".toList)) ∧
    score_mcq_answer [] (some ("B".toList)) = false :=
  C4_mcq_scoring ("b".toList) ("B".toList) (by decide)

/-- C9, counterexample: the token estimate is not monotonic in text length
alone over texts with no extra whitespace.  `"a a a"` and `"aaaaa"` both have
no extra whitespace and equal length 5, but the first estimates to 2 tokens
and the second to 1, so length-monotonicity fails in one direction. -/
theorem C9_counterexample :
    specNoExtraWhitespace ("a a a".toList) = true ∧
    specNoExtraWhitespace ("aaaaa".toList) = true ∧
    ("a a a".toList : Str).length ≤ ("aaaaa".toList : Str).length ∧
    approximate_token_count ("aaaaa".toList) <
      approximate_token_count ("a a a".toList) := by
  decide

/-- C9, amended: the token estimate is monotonic non-decreasing when both
the character count and the word count are non-decreasing; it is exactly 0
for the empty string; and for non-empty text it equals the floored average
of the word-count estimate `int(word_count / 0.75) = 4 * word_count / 3`
and the character-count estimate `char_count / 4`, with a minimum of 1. -/
theorem C9_amended :
    (∀ t1 t2 : Str, (pySplitWs t1).length ≤ (pySplitWs t2).length →
        t1.length ≤ t2.length →
        approximate_token_count t1 ≤ approximate_token_count t2) ∧
    approximate_token_count [] = 0 ∧
    (∀ t : Str, t ≠ [] →
        approximate_token_count t =
          max 1 ((4 * (pySplitWs t).length / 3 + t.length / 4) / 2) ∧
        1 ≤ approximate_token_count t) := by
  refine ⟨?_, rfl, ?_⟩
  · intro t1 t2 hw hc
    by_cases h1 : t1 = []
    · subst h1; simp [approximate_token_count]
    · have h2 : t2 ≠ [] := by
        intro h2
        subst h2
        exact h1 (List.eq_nil_of_length_eq_zero (Nat.le_zero.mp hc))
      simp only [approximate_token_count, if_neg h1, if_neg h2]
      apply max_le_max le_rfl
      apply Nat.div_le_div_right
      apply Nat.add_le_add
      · rcases Nat.eq_zero_or_pos (pySplitWs t1).length with h | h
        · simp [h]
        · rw [if_pos h, if_pos (lt_of_lt_of_le h hw)]
          exact Nat.div_le_div_right (Nat.mul_le_mul_left 4 hw)
      · exact Nat.div_le_div_right hc
  · intro t ht
    constructor
    · simp only [approximate_token_count, if_neg ht]
      rcases Nat.eq_zero_or_pos (pySplitWs t).length with h | h
      · simp [h]
      · rw [if_pos h]
    · simp only [approximate_token_count, if_neg ht]
      exact le_max_left 1 _

/-- Witness for `C9_amended` on `"ab"` and `"abc"`. -/
theorem C9_amended_witness :
    approximate_token_count ("ab".toList) ≤ approximate_token_count ("abc".toList) :=
  C9_amended.1 ("ab".toList) ("abc".toList) (by decide) (by decide)

/-! ### String lemmas for the judge-reply claim -/

/-- `isPrefixOfStr` decides the prefix relation. -/
theorem isPrefixOfStr_iff (n h : Str) : isPrefixOfStr n h = true ↔ n <+: h := by
  induction n generalizing h with
  | nil => simp [isPrefixOfStr]
  | cons a as ih =>
    cases h with
    | nil => simp [isPrefixOfStr]
    | cons b bs =>
      simp only [isPrefixOfStr, Bool.and_eq_true, decide_eq_true_eq, ih,
        List.cons_prefix_cons]

/-- `containsSub` decides substring containment. -/
theorem containsSub_iff (hay n : Str) : containsSub hay n = true ↔ n <:+: hay := by
  induction hay with
  | nil => simp [containsSub, isPrefixOfStr_iff]
  | cons c cs ih => simp [containsSub, isPrefixOfStr_iff, ih, List.infix_cons_iff]

/-- ASCII lower-casing does not change whitespace-ness. -/
theorem asciiLower_space (c : Char) : pyIsSpace (asciiLower c) = pyIsSpace c := by
  unfold asciiLower
  cases hf : asciiCasePairs.find? (fun p => p.1 = c) with
  | none => rfl
  | some p =>
    have hmem := List.mem_of_find?_eq_some hf
    have hpc := List.find?_some hf
    simp only [decide_eq_true_eq] at hpc
    subst hpc
    fin_cases hmem <;> rfl

/-- `dropWhile` commutes with a map that leaves the predicate invariant. -/
theorem dropWhile_map_of_invariant (f : Char → Char) (p : Char → Bool)
    (hp : ∀ c, p (f c) = p c) (l : Str) :
    (l.map f).dropWhile p = (l.dropWhile p).map f := by
  induction l with
  | nil => rfl
  | cons c cs ih =>
    simp only [List.map_cons, List.dropWhile_cons, hp c]
    cases hpc : p c <;> simp [hpc, ih]

/-- Lower-casing commutes with stripping. -/
theorem pyLower_pyStrip_comm (s : Str) : pyLower (pyStrip s) = pyStrip (pyLower s) := by
  unfold pyLower pyStrip
  rw [dropWhile_map_of_invariant asciiLower pyIsSpace asciiLower_space s,
    ← List.map_reverse,
    dropWhile_map_of_invariant asciiLower pyIsSpace asciiLower_space,
    ← List.map_reverse]

/-- A non-empty whitespace-free infix survives `dropWhile pyIsSpace`. -/
theorem infix_dropWhile_of_no_space (n : Str) (hn : n ≠ [])
    (hw : ∀ c ∈ n, pyIsSpace c = false) :
    ∀ s : Str, n <:+: s → n <:+: s.dropWhile pyIsSpace := by
  intro s
  induction s with
  | nil =>
    intro h
    have hlen := h.length_le
    simp at hlen
    exact absurd hlen hn
  | cons c cs ih =>
    intro h
    rw [List.dropWhile_cons]
    cases hc : pyIsSpace c with
    | false => simpa [hc] using h
    | true =>
      simp only [hc, if_pos]
      rcases List.infix_cons_iff.mp h with hpre | hinf
      · rcases List.prefix_cons_iff.mp hpre with hnil | ⟨t, hnt, _⟩
        · exact absurd hnil hn
        · exfalso
          have hcw : pyIsSpace c = false :=
            hw c (by rw [hnt]; exact List.mem_cons_self c t)
          rw [hcw] at hc
          cases hc
      · exact ih hinf

/-- A non-empty whitespace-free infix of a string is an infix of its
stripped form. -/
theorem infix_pyStrip_of_no_space (n : Str) (hn : n ≠ [])
    (hw : ∀ c ∈ n, pyIsSpace c = false) (s : Str) (h : n <:+: s) :
    n <:+: pyStrip s := by
  unfold pyStrip
  have h1 := infix_dropWhile_of_no_space n hn hw s h
  have h2 : n.reverse <:+: (s.dropWhile pyIsSpace).reverse :=
    List.reverse_infix.mpr h1
  have h3 := infix_dropWhile_of_no_space n.reverse
      (by simpa using hn)
      (by intro c hc; exact hw c (List.mem_reverse.mp hc))
      _ h2
  have h4 := List.reverse_infix.mpr h3
  simpa using h4

/-- The stripped string is an infix of the original. -/
theorem pyStrip_infix_self (s : Str) : pyStrip s <:+: s := by
  unfold pyStrip
  have h1 : (s.dropWhile pyIsSpace).reverse.dropWhile pyIsSpace <:+
      (s.dropWhile pyIsSpace).reverse :=
    List.dropWhile_suffix pyIsSpace
  have h2 := List.reverse_prefix.mpr h1
  rw [List.reverse_reverse] at h2
  rcases h2 with ⟨r, hr⟩
  rcases List.dropWhile_suffix (l := s) pyIsSpace with ⟨t, ht⟩
  exact ⟨t, r, by rw [List.append_assoc, hr, ht]⟩

/-- Containment of a non-empty whitespace-free needle is unchanged by
stripping the haystack. -/
theorem containsSub_pyStrip (s n : Str) (hn : n ≠ [])
    (hw : ∀ c ∈ n, pyIsSpace c = false) :
    containsSub (pyStrip s) n = containsSub s n := by
  cases hb : containsSub s n with
  | true =>
    have hin := (containsSub_iff s n).mp hb
    exact (containsSub_iff _ _).mpr (infix_pyStrip_of_no_space n hn hw s hin)
  | false =>
    cases hb2 : containsSub (pyStrip s) n with
    | false => rfl
    | true =>
      exfalso
      have h1 := (containsSub_iff _ _).mp hb2
      have h2 : n <:+: s := h1.trans (pyStrip_infix_self s)
      have h3 := (containsSub_iff s n).mpr h2
      rw [hb] at h3
      cases h3

/-- C5: the judge-reply parser returns `true` on the exact normalized reply
`"correct"`, `false` on the exact `"incorrect"`, and otherwise `true` iff
the lower-cased reply contains `"correct"` and not `"incorrect"`; the empty
reply (transient-failure degradation) yields `false` rather than an error,
and the three example replies behave as the spec states. -/
theorem C5_judge_reply_parsing :
    (∀ r : Str, pyLower (pyStrip r) = "correct".toList →
      judge_reply_is_correct r = true) ∧
    (∀ r : Str, pyLower (pyStrip r) = "incorrect".toList →
      judge_reply_is_correct r = false) ∧
    (∀ r : Str, pyLower (pyStrip r) ≠ "correct".toList →
      pyLower (pyStrip r) ≠ "incorrect".toList →
      (judge_reply_is_correct r = true ↔
        (containsSub (pyLower r) ("correct".toList) = true ∧
         containsSub (pyLower r) ("incorrect".toList) = false))) ∧
    judge_reply_is_correct [] = false ∧
    judge_reply_is_correct ("Correct, well reasoned.".toList) = true ∧
    judge_reply_is_correct ("Incorrect".toList) = false ∧
    judge_reply_is_correct ("maybe".toList) = false := by
  refine ⟨?_, ?_, ?_, by decide, by decide, by decide, by decide⟩
  · intro r h
    simp [judge_reply_is_correct, h]
  · intro r h
    simp [judge_reply_is_correct, h]
  · intro r h1 h2
    have e1 : containsSub (pyLower (pyStrip r)) ("correct".toList)
        = containsSub (pyLower r) ("correct".toList) := by
      rw [pyLower_pyStrip_comm]
      exact containsSub_pyStrip (pyLower r) _ (by decide) (by decide)
    have e2 : containsSub (pyLower (pyStrip r)) ("incorrect".toList)
        = containsSub (pyLower r) ("incorrect".toList) := by
      rw [pyLower_pyStrip_comm]
      exact containsSub_pyStrip (pyLower r) _ (by decide) (by decide)
    simp only [judge_reply_is_correct, if_neg h1, if_neg h2, e1, e2]
    cases hcc : containsSub (pyLower r) ("correct".toList) <;>
      cases hci : containsSub (pyLower r) ("incorrect".toList) <;> simp

/-- Witness for `C5_judge_reply_parsing` on the reply `"maybe"`. -/
theorem C5_judge_reply_parsing_witness :
    judge_reply_is_correct ("maybe".toList) = true ↔
      (containsSub (pyLower ("maybe".toList)) ("correct".toList) = true ∧
       containsSub (pyLower ("maybe".toList)) ("incorrect".toList) = false) :=
  C5_judge_reply_parsing.2.2.1 ("maybe".toList) (by decide) (by decide)

/-! ### The Wilson confidence interval -/

/-- Closed form of the confidence interval at confidence 0.95 for a
proportion `p` in `[0, 1]` and a positive sample count. -/
theorem wilson_unfold (p : ℝ) (n : ℕ) (h0 : 0 ≤ p) (h1 : p ≤ 1) (hn : 0 < n) :
    compute_confidence_interval p n 0.95 =
      (max 0 ((p + 1.96 ^ 2 / (2 * (n : ℝ))) / (1 + 1.96 ^ 2 / (n : ℝ)) -
          1.96 * Real.sqrt (p * (1 - p) / (n : ℝ) + 1.96 ^ 2 / (4 * (n : ℝ) ^ 2)) /
            (1 + 1.96 ^ 2 / (n : ℝ))),
       min 1 ((p + 1.96 ^ 2 / (2 * (n : ℝ))) / (1 + 1.96 ^ 2 / (n : ℝ)) +
          1.96 * Real.sqrt (p * (1 - p) / (n : ℝ) + 1.96 ^ 2 / (4 * (n : ℝ) ^ 2)) /
            (1 + 1.96 ^ 2 / (n : ℝ)))) := by
  simp only [compute_confidence_interval, if_neg hn.ne',
    if_neg (by norm_num : ¬((0.95 : ℝ) = 0.90)), if_pos rfl, if_true,
    min_eq_right h1, max_eq_right h0]
  have harg : p * (1 - p) / (n : ℝ) + 1.96 * 1.96 / (4 * (n : ℝ) * (n : ℝ)) =
      p * (1 - p) / (n : ℝ) + 1.96 ^ 2 / (4 * (n : ℝ) ^ 2) := by ring
  rw [harg]
  simp only [show (1.96 : ℝ) * 1.96 = 1.96 ^ 2 from by ring]

/-- C2: at confidence 0.95 the function returns the Wilson score interval
with `z = 1.96`, center `(p + z²/2n)/(1 + z²/n)` and spread
`z·sqrt(p(1-p)/n + z²/4n²)/(1 + z²/n)`, both bounds clamped to `[0, 1]`
(for an accuracy `p ∈ [0,1]` and `n > 0`); for `n = 0` it returns exactly
`(0, 0)`; and for `n = 100`, `p = 0.5` both bounds are within `1e-3` of
`(0.404, 0.596)`. -/
theorem C2_wilson_interval :
    (∀ (p : ℝ) (n : ℕ), 0 ≤ p → p ≤ 1 → 0 < n →
      compute_confidence_interval p n 0.95 =
        (max 0 ((p + 1.96 ^ 2 / (2 * (n : ℝ))) / (1 + 1.96 ^ 2 / (n : ℝ)) -
            1.96 * Real.sqrt (p * (1 - p) / (n : ℝ) + 1.96 ^ 2 / (4 * (n : ℝ) ^ 2)) /
              (1 + 1.96 ^ 2 / (n : ℝ))),
         min 1 ((p + 1.96 ^ 2 / (2 * (n : ℝ))) / (1 + 1.96 ^ 2 / (n : ℝ)) +
            1.96 * Real.sqrt (p * (1 - p) / (n : ℝ) + 1.96 ^ 2 / (4 * (n : ℝ) ^ 2)) /
              (1 + 1.96 ^ 2 / (n : ℝ))))) ∧
    (∀ p : ℝ, compute_confidence_interval p 0 0.95 = (0, 0)) ∧
    |(compute_confidence_interval 0.5 100 0.95).1 - 0.404| ≤ 1e-3 ∧
    |(compute_confidence_interval 0.5 100 0.95).2 - 0.596| ≤ 1e-3 := by
  have hs_lb : (0.0509 : ℝ) ≤ Real.sqrt 0.00259604 := by
    have h := Real.sqrt_le_sqrt (by norm_num : ((0.0509 : ℝ) ^ 2) ≤ 0.00259604)
    rwa [Real.sqrt_sq (by norm_num : (0 : ℝ) ≤ 0.0509)] at h
  have hs_ub : Real.sqrt 0.00259604 ≤ 0.051 := by
    have h := Real.sqrt_le_sqrt (by norm_num : (0.00259604 : ℝ) ≤ 0.051 ^ 2)
    rwa [Real.sqrt_sq (by norm_num : (0 : ℝ) ≤ 0.051)] at h
  have key : compute_confidence_interval 0.5 100 0.95 =
      (max 0 (0.5 - 1.96 * Real.sqrt 0.00259604 / 1.038416),
       min 1 (0.5 + 1.96 * Real.sqrt 0.00259604 / 1.038416)) := by
    rw [wilson_unfold 0.5 100 (by norm_num) (by norm_num) (by norm_num)]
    norm_num
  have hsp_ub : (1.96 : ℝ) * Real.sqrt 0.00259604 / 1.038416 ≤ 0.097 := by
    rw [div_le_iff₀ (by norm_num : (0 : ℝ) < 1.038416)]
    nlinarith [hs_ub]
  have hsp_lb : (0.096 : ℝ) ≤ 1.96 * Real.sqrt 0.00259604 / 1.038416 := by
    rw [le_div_iff₀ (by norm_num : (0 : ℝ) < 1.038416)]
    nlinarith [hs_lb]
  refine ⟨wilson_unfold, fun p => rfl, ?_, ?_⟩
  · rw [key]
    rw [max_eq_right (by linarith : (0 : ℝ) ≤ 0.5 - 1.96 * Real.sqrt 0.00259604 / 1.038416)]
    rw [abs_le]
    constructor <;> linarith
  · rw [key]
    rw [min_eq_right (by linarith : (0.5 : ℝ) + 1.96 * Real.sqrt 0.00259604 / 1.038416 ≤ 1)]
    rw [abs_le]
    constructor <;> linarith

/-- Witness for `C2_wilson_interval` at `p = 1/2`, `n = 4`. -/
theorem C2_wilson_interval_witness :
    compute_confidence_interval (1 / 2) 4 0.95 =
      (max 0 ((1 / 2 + 1.96 ^ 2 / (2 * ((4 : ℕ) : ℝ))) / (1 + 1.96 ^ 2 / ((4 : ℕ) : ℝ)) -
          1.96 * Real.sqrt (1 / 2 * (1 - 1 / 2) / ((4 : ℕ) : ℝ) +
              1.96 ^ 2 / (4 * ((4 : ℕ) : ℝ) ^ 2)) /
            (1 + 1.96 ^ 2 / ((4 : ℕ) : ℝ))),
       min 1 ((1 / 2 + 1.96 ^ 2 / (2 * ((4 : ℕ) : ℝ))) / (1 + 1.96 ^ 2 / ((4 : ℕ) : ℝ)) +
          1.96 * Real.sqrt (1 / 2 * (1 - 1 / 2) / ((4 : ℕ) : ℝ) +
              1.96 ^ 2 / (4 * ((4 : ℕ) : ℝ) ^ 2)) /
            (1 + 1.96 ^ 2 / ((4 : ℕ) : ℝ)))) :=
  C2_wilson_interval.1 (1 / 2) 4 (by norm_num) (by norm_num) (by norm_num)

/-! ### The condition-comparison engine -/

/-- Lookup after a dictionary assignment. -/
theorem lookupIndex_insertBaseline (m : List ((String × String) × SummaryRow))
    (k0 k : String × String) (v : SummaryRow) :
    lookupIndex (insertBaseline m k0 v) k =
      if k0 = k then some v else lookupIndex m k := by
  induction m with
  | nil => simp [insertBaseline, lookupIndex]
  | cons e rest ih =>
    obtain ⟨ke, ve⟩ := e
    by_cases h : ke = k0
    · subst h
      simp only [insertBaseline, if_pos rfl, lookupIndex]
      by_cases h2 : ke = k <;> simp [h2]
    · simp only [insertBaseline, if_neg h, lookupIndex, ih]
      by_cases h2 : ke = k
      · subst h2
        have hne : ¬(k0 = ke) := fun hk => h hk.symm
        simp [hne]
      · simp [h2]

/-- A key is present in the baseline index iff some row of the baseline
condition carries it. -/
theorem lookupIndex_buildBaselineIndex_isSome (rows : List SummaryRow)
    (bid : String) (k : String × String) :
    (lookupIndex (buildBaselineIndex rows bid) k).isSome = true ↔
      ∃ r ∈ rows, r.condition_id = bid ∧ (r.dataset, r.model_id) = k := by
  have main : ∀ (rs : List SummaryRow) (m0 : List ((String × String) × SummaryRow)),
      (lookupIndex
          (rs.foldl (fun m r =>
            if r.condition_id = bid then insertBaseline m (r.dataset, r.model_id) r
            else m) m0) k).isSome = true ↔
        ((lookupIndex m0 k).isSome = true ∨
          ∃ r ∈ rs, r.condition_id = bid ∧ (r.dataset, r.model_id) = k) := by
    intro rs
    induction rs with
    | nil => simp
    | cons r rest ih =>
      intro m0
      simp only [List.foldl_cons]
      by_cases hc : r.condition_id = bid
      · rw [if_pos hc, ih, lookupIndex_insertBaseline]
        by_cases hk : (r.dataset, r.model_id) = k
        · rw [if_pos hk]
          constructor
          · intro _
            exact Or.inr ⟨r, List.mem_cons_self r rest, hc, hk⟩
          · intro _
            exact Or.inl rfl
        · rw [if_neg hk]
          constructor
          · rintro (hl | ⟨x, hx, hx2⟩)
            · exact Or.inl hl
            · exact Or.inr ⟨x, List.mem_cons_of_mem r hx, hx2⟩
          · rintro (hl | ⟨x, hx, hx2⟩)
            · exact Or.inl hl
            · rcases List.mem_cons.mp hx with rfl | hx3
              · exact absurd hx2.2 hk
              · exact Or.inr ⟨x, hx3, hx2⟩
      · rw [if_neg hc, ih]
        constructor
        · rintro (hl | ⟨x, hx, hx2⟩)
          · exact Or.inl hl
          · exact Or.inr ⟨x, List.mem_cons_of_mem r hx, hx2⟩
        · rintro (hl | ⟨x, hx, hx2⟩)
          · exact Or.inl hl
          · rcases List.mem_cons.mp hx with rfl | hx3
            · exact absurd hx2.1 hc
            · exact Or.inr ⟨x, hx3, hx2⟩
  have h := main rows []
  simpa [buildBaselineIndex, lookupIndex] using h

/-- C6: the comparison engine emits one row per input row, in order; with a
matching baseline, `delta_accuracy = accuracy - baseline accuracy` and
`relative_accuracy = accuracy / baseline accuracy`, a non-positive baseline
accuracy giving `+infinity` rather than an error; without a matching
baseline, `delta_accuracy = 0` and `relative_accuracy = 1`; a baseline
exists exactly when some input row has the baseline condition and the same
`(dataset, model)` key; and the concrete pair baseline 0.8 / target 0.6
yields delta -0.2 and relative 0.75. -/
theorem C6_condition_comparison :
    (∀ (rows : List SummaryRow) (bid : String),
      (compute_condition_comparison rows bid).length = rows.length) ∧
    (∀ (rows : List SummaryRow) (bid : String) (i : ℕ) (h : i < rows.length)
        (h2 : i < (compute_condition_comparison rows bid).length),
      letI row := rows.get ⟨i, h⟩
      letI c := (compute_condition_comparison rows bid).get ⟨i, h2⟩
      c.dataset = row.dataset ∧ c.model_id = row.model_id ∧
      c.condition_id = row.condition_id ∧ c.mean_accuracy = row.mean_accuracy ∧
      (∀ b, lookupIndex (buildBaselineIndex rows bid) (row.dataset, row.model_id) =
          some b →
        c.delta_accuracy = row.mean_accuracy - b.mean_accuracy ∧
        c.relative_accuracy =
          (if 0 < b.mean_accuracy then
            ((row.mean_accuracy / b.mean_accuracy : ℝ) : EReal)
          else (⊤ : EReal)) ∧
        c.baseline_accuracy = b.mean_accuracy) ∧
      (lookupIndex (buildBaselineIndex rows bid) (row.dataset, row.model_id) = none →
        c.delta_accuracy = 0 ∧ c.relative_accuracy = ((1 : ℝ) : EReal) ∧
        c.baseline_accuracy = row.mean_accuracy)) ∧
    (∀ (rows : List SummaryRow) (bid : String) (k : String × String),
      (lookupIndex (buildBaselineIndex rows bid) k).isSome = true ↔
        ∃ r ∈ rows, r.condition_id = bid ∧ (r.dataset, r.model_id) = k) ∧
    (compute_condition_comparison
        [plainSummaryRow "d" "m" "baseline_mc" 0.8,
         plainSummaryRow "d" "m" "persona" 0.6] "baseline_mc").map
      (fun c => (c.delta_accuracy, c.relative_accuracy)) =
      [((0 : ℝ), ((1 : ℝ) : EReal)), ((-0.2 : ℝ), ((0.75 : ℝ) : EReal))] := by
  refine ⟨?_, ?_, lookupIndex_buildBaselineIndex_isSome, ?_⟩
  · intro rows bid
    simp [compute_condition_comparison]
  · intro rows bid i h h2
    have hget : (compute_condition_comparison rows bid).get ⟨i, h2⟩ =
        comparisonOf
          (lookupIndex (buildBaselineIndex rows bid)
            ((rows.get ⟨i, h⟩).dataset, (rows.get ⟨i, h⟩).model_id))
          (rows.get ⟨i, h⟩) := by
      simp [compute_condition_comparison, List.get_eq_getElem]
    rw [hget]
    refine ⟨?_, ?_, ?_, ?_, ?_, ?_⟩
    · cases hb : lookupIndex (buildBaselineIndex rows bid)
        ((rows.get ⟨i, h⟩).dataset, (rows.get ⟨i, h⟩).model_id) <;>
        simp [comparisonOf, hb]
    · cases hb : lookupIndex (buildBaselineIndex rows bid)
        ((rows.get ⟨i, h⟩).dataset, (rows.get ⟨i, h⟩).model_id) <;>
        simp [comparisonOf, hb]
    · cases hb : lookupIndex (buildBaselineIndex rows bid)
        ((rows.get ⟨i, h⟩).dataset, (rows.get ⟨i, h⟩).model_id) <;>
        simp [comparisonOf, hb]
    · cases hb : lookupIndex (buildBaselineIndex rows bid)
        ((rows.get ⟨i, h⟩).dataset, (rows.get ⟨i, h⟩).model_id) <;>
        simp [comparisonOf, hb]
    · intro b hb
      rw [hb]
      simp [comparisonOf]
    · intro hb
      rw [hb]
      simp [comparisonOf]
  · have hne : ("persona" : String) ≠ "baseline_mc" := by decide
    have h1 : (0.8 : ℝ) / 0.8 = 1 := by norm_num
    have h2 : (0.6 : ℝ) / 0.8 = 0.75 := by norm_num
    simp only [compute_condition_comparison, buildBaselineIndex, List.foldl_cons,
      List.foldl_nil, plainSummaryRow, if_pos rfl, if_neg hne, insertBaseline,
      lookupIndex, List.map_cons, List.map_nil, comparisonOf]
    norm_num [h1, h2]

/-- Witness for `C6_condition_comparison` on a two-row input. -/
theorem C6_condition_comparison_witness :
    (compute_condition_comparison
      [plainSummaryRow "d" "m" "baseline_mc" 0.8,
       plainSummaryRow "d" "m" "persona" 0.6] "baseline_mc").length =
      ([plainSummaryRow "d" "m" "baseline_mc" 0.8,
        plainSummaryRow "d" "m" "persona" 0.6] : List SummaryRow).length :=
  C6_condition_comparison.1
    [plainSummaryRow "d" "m" "baseline_mc" 0.8,
     plainSummaryRow "d" "m" "persona" 0.6] "baseline_mc"

/-! ### The short-format MCQ parser fallback -/

/-- Reversal turns prefixes into suffixes. -/
theorem revPrefixIff (l1 l2 : List α) : l1.reverse <+: l2.reverse ↔ l1 <:+ l2 :=
  List.reverse_prefix

/-- `lastN n` is a suffix. -/
theorem lastN_suffix (n : ℕ) (l : List α) : lastN n l <:+ l :=
  List.drop_suffix _ _

/-- Filtering preserves suffixes. -/
theorem suffix_filter (p : α → Bool) {l1 l2 : List α} (h : l1 <:+ l2) :
    l1.filter p <:+ l2.filter p := by
  obtain ⟨t, ht⟩ := h
  exact ⟨t.filter p, by rw [← List.filter_append, ht]⟩

/-- Of two suffixes of one list, the shorter is a suffix of the longer. -/
theorem suffix_of_suffix_le {s1 s2 l : List α} (h1 : s1 <:+ l) (h2 : s2 <:+ l)
    (hlen : s1.length ≤ s2.length) : s1 <:+ s2 := by
  rw [← revPrefixIff] at h1 h2 ⊢
  exact List.prefix_of_prefix_length_le h1 h2 (by simpa using hlen)

/-- The length of `lastN n`. -/
theorem lastN_length (n : ℕ) (l : List α) : (lastN n l).length = min n l.length := by
  simp [lastN]
  omega

/-- A non-empty member of the last three lines is among the last three
non-empty lines. -/
theorem mem_lastN_filter {l : List Str} {x : Str} (hx : x ∈ lastN 3 l)
    (hne : x ≠ []) : x ∈ lastN 3 (l.filter (fun t => t ≠ [])) := by
  have hsf : (lastN 3 l).filter (fun t => t ≠ []) <:+ l.filter (fun t => t ≠ []) :=
    suffix_filter _ (lastN_suffix 3 l)
  have hxf : x ∈ (lastN 3 l).filter (fun t => t ≠ []) := by
    rw [List.mem_filter]
    exact ⟨hx, by simpa using hne⟩
  have hlen : ((lastN 3 l).filter (fun t => t ≠ [])).length ≤
      (lastN 3 (l.filter (fun t => t ≠ []))).length := by
    have ha : ((lastN 3 l).filter (fun t => t ≠ [])).length ≤ (lastN 3 l).length :=
      List.length_filter_le _ _
    have hb : ((lastN 3 l).filter (fun t => t ≠ [])).length ≤
        (l.filter (fun t => t ≠ [])).length :=
      List.IsSuffix.length_le hsf
    rw [lastN_length] at ha ⊢
    omega
  have hss := suffix_of_suffix_le hsf (lastN_suffix 3 (l.filter (fun t => t ≠ [])))
    hlen
  exact hss.subset hxf

/-- Scanning lines without a standalone letter finds nothing. -/
theorem scanLinesForLetter_none {L : List Str}
    (h : ∀ l ∈ L, findStandalone l = none) : scanLinesForLetter L = none := by
  induction L with
  | nil => rfl
  | cons l rest ih =>
    simp only [scanLinesForLetter, h l (List.mem_cons_self l rest)]
    exact ih (fun x hx => h x (List.mem_cons_of_mem l hx))

/-- C7, counterexample: the text `"Answer: B\nno\nno\nno"` has no standalone
letter A-J in its last 3 non-empty lines, yet the short-format parser
returns `"B"` (the `Answer: X` regex fires on the first line), not `""`. -/
theorem C7_counterexample :
    specLastNonEmptyLinesLetterFree ("Answer: B\nno\nno\nno".toList) = true ∧
    parse_answer_mcq_short_format ("Answer: B\nno\nno\nno".toList) = "B".toList := by
  decide

/-- C7, amended: for every text on which none of the four explicit answer
patterns matches anywhere and whose last 3 non-empty lines contain no
standalone letter token A-J, the short-format parser returns the empty
string. -/
theorem C7_amended (text : Str)
    (hp1 : searchAt matchShortP1At (pyStrip text) = none)
    (hp2 : searchAt matchShortP2At (pyStrip text) = none)
    (hp3 : searchAt matchShortP3At (pyStrip text) = none)
    (hp4 : searchAt matchShortP4At (pyStrip text) = none)
    (hlast : ∀ l ∈ lastN 3 ((pySplitlines (pyStrip text)).filter (fun t => t ≠ [])),
      findStandalone l = none) :
    parse_answer_mcq_short_format text = [] := by
  simp only [parse_answer_mcq_short_format, hp1, hp2, hp3, hp4]
  have hif : (if 3 ≤ (pySplitlines (pyStrip text)).length then
        lastN 3 (pySplitlines (pyStrip text))
      else pySplitlines (pyStrip text)) = lastN 3 (pySplitlines (pyStrip text)) := by
    by_cases h3 : 3 ≤ (pySplitlines (pyStrip text)).length
    · rw [if_pos h3]
    · rw [if_neg h3]
      unfold lastN
      rw [Nat.sub_eq_zero_of_le (by omega), List.drop_zero]
  rw [hif]
  have hall : ∀ l ∈ (lastN 3 (pySplitlines (pyStrip text))).reverse,
      findStandalone l = none := by
    intro l hl
    rw [List.mem_reverse] at hl
    by_cases hne : l = []
    · subst hne; rfl
    · exact hlast l (mem_lastN_filter hl hne)
  rw [scanLinesForLetter_none hall]

/-- Witness for `C7_amended` on the text `"hello\nworld"`. -/
theorem C7_amended_witness :
    parse_answer_mcq_short_format ("hello\nworld".toList) = [] :=
  C7_amended ("hello\nworld".toList) (by decide) (by decide) (by decide)
    (by decide) (by decide)

/-! ### Reasoning/final-answer split: line structure lemmas -/

/-- One-step unfolding: a leading newline before a non-empty tail opens a
fresh line. -/
theorem pySplitlinesGo_nl (d : Char) (ds : Str) :
    pySplitlinesGo ('\n' :: d :: ds) = [] :: pySplitlinesGo (d :: ds) := rfl

/-- One-step unfolding at a non-newline head character. -/
theorem pySplitlinesGo_cons_ne (c : Char) (cs : Str) (hc : ¬(c = '\n')) :
    pySplitlinesGo (c :: cs) =
      match pySplitlinesGo cs with
      | [] => [[c]]
      | l :: ls => (c :: l) :: ls := by
  rw [show pySplitlinesGo (c :: cs) =
      (if c = '\n' then
        match cs with
        | [] => [[]]
        | _ :: _ => [] :: pySplitlinesGo cs
      else
        match pySplitlinesGo cs with
        | [] => [[c]]
        | l :: ls => (c :: l) :: ls) from rfl]
  rw [if_neg hc]

/-- The splitter worker never returns an empty line list. -/
theorem pySplitlinesGo_ne_nil (s : Str) : pySplitlinesGo s ≠ [] := by
  induction s with
  | nil => simp [pySplitlinesGo]
  | cons c cs ih =>
    by_cases hc : c = '\n'
    · subst hc
      cases cs with
      | nil => simp [pySplitlinesGo]
      | cons d ds => rw [pySplitlinesGo_nl]; simp
    · rw [pySplitlinesGo_cons_ne c cs hc]
      cases hgo : pySplitlinesGo cs with
      | nil => simp
      | cons l ls => simp

/-- Joining a list whose first line gained a character. -/
theorem joinNL_cons_head (c : Char) (l : Str) (ls : List Str) :
    joinNL ((c :: l) :: ls) = c :: joinNL (l :: ls) := by
  cases ls <;> simp [joinNL]

/-- Lines produced by the splitter contain no newline. -/
theorem no_newline_of_mem_pySplitlinesGo (s : Str) :
    ∀ l ∈ pySplitlinesGo s, '\n' ∉ l := by
  induction s with
  | nil => intro l hl; simp [pySplitlinesGo] at hl; simp [hl]
  | cons c cs ih =>
    intro l hl
    by_cases hc : c = '\n'
    · subst hc
      cases cs with
      | nil =>
        simp [pySplitlinesGo] at hl
        simp [hl]
      | cons d ds =>
        rw [pySplitlinesGo_nl] at hl
        rcases List.mem_cons.mp hl with rfl | hl
        · simp
        · exact ih l hl
    · rw [pySplitlinesGo_cons_ne c cs hc] at hl
      cases hgo : pySplitlinesGo cs with
      | nil => exact absurd hgo (pySplitlinesGo_ne_nil cs)
      | cons l0 ls0 =>
        rw [hgo] at hl
        rcases List.mem_cons.mp hl with rfl | hl2
        · intro hmem
          rcases List.mem_cons.mp hmem with h1 | h2
          · exact hc h1.symm
          · exact ih l0 (by rw [hgo]; exact List.mem_cons_self l0 ls0) h2
        · exact ih l (by rw [hgo]; exact List.mem_cons_of_mem l0 hl2)

/-- Splitting then joining restores a string with no trailing newline. -/
theorem joinNL_pySplitlinesGo (s : Str) (hne : s ≠ [])
    (hlast : s.getLast? ≠ some '\n') : joinNL (pySplitlinesGo s) = s := by
  induction s with
  | nil => exact absurd rfl hne
  | cons c cs ih =>
    by_cases hc : c = '\n'
    · subst hc
      cases cs with
      | nil => exact absurd rfl hlast
      | cons d ds =>
        rw [pySplitlinesGo_nl]
        have hj : joinNL ([] :: pySplitlinesGo (d :: ds)) =
            '\n' :: joinNL (pySplitlinesGo (d :: ds)) := by
          cases hgo : pySplitlinesGo (d :: ds) with
          | nil => exact absurd hgo (pySplitlinesGo_ne_nil _)
          | cons l0 ls0 => simp [joinNL]
        rw [hj, ih (by simp) (by rwa [List.getLast?_cons_cons] at hlast)]
    · rw [pySplitlinesGo_cons_ne c cs hc]
      cases cs with
      | nil => simp [pySplitlinesGo, joinNL]
      | cons d ds =>
        cases hgo : pySplitlinesGo (d :: ds) with
        | nil => exact absurd hgo (pySplitlinesGo_ne_nil _)
        | cons l0 ls0 =>
          have := ih (by simp) (by rwa [List.getLast?_cons_cons] at hlast)
          rw [hgo] at this
          rw [joinNL_cons_head, this]

/-- The head surviving `dropWhile` fails the predicate. -/
theorem head?_dropWhile_false (p : Char → Bool) (l : Str) (c : Char)
    (h : (l.dropWhile p).head? = some c) : p c = false := by
  induction l with
  | nil => simp [List.dropWhile] at h
  | cons a as ih =>
    rw [List.dropWhile_cons] at h
    by_cases hp : p a
    · rw [if_pos hp] at h
      exact ih h
    · rw [if_neg hp] at h
      simp at h
      rw [← h]
      cases hpa : p a
      · rfl
      · exact absurd hpa hp

/-- `dropWhile` fixes a list whose head fails the predicate. -/
theorem dropWhile_eq_self_of_head (p : Char → Bool) (l : Str)
    (h : ∀ c, l.head? = some c → p c = false) : l.dropWhile p = l := by
  cases l with
  | nil => rfl
  | cons a as =>
    rw [List.dropWhile_cons, if_neg]
    rw [h a rfl]
    simp

/-- `dropWhile` keeps the last element. -/
theorem getLast?_dropWhile (p : Char → Bool) (l : Str)
    (h : l.dropWhile p ≠ []) : (l.dropWhile p).getLast? = l.getLast? := by
  obtain ⟨w, hw⟩ := List.dropWhile_suffix (l := l) p
  conv_rhs => rw [← hw]
  exact (List.getLast?_append_of_ne_nil w h).symm

/-- Stripping is idempotent. -/
theorem pyStrip_idem (s : Str) : pyStrip (pyStrip s) = pyStrip s := by
  by_cases hBnil : (s.dropWhile pyIsSpace).reverse.dropWhile pyIsSpace = []
  · show pyStrip (((s.dropWhile pyIsSpace).reverse.dropWhile pyIsSpace).reverse) =
      ((s.dropWhile pyIsSpace).reverse.dropWhile pyIsSpace).reverse
    rw [hBnil]
    rfl
  · have hhead : ∀ c,
        ((s.dropWhile pyIsSpace).reverse.dropWhile pyIsSpace).reverse.head? = some c →
        pyIsSpace c = false := by
      intro c hc
      rw [List.head?_reverse, getLast?_dropWhile _ _ hBnil,
        List.getLast?_reverse] at hc
      exact head?_dropWhile_false _ _ _ hc
    have hBB : ((s.dropWhile pyIsSpace).reverse.dropWhile pyIsSpace).dropWhile
          pyIsSpace =
        (s.dropWhile pyIsSpace).reverse.dropWhile pyIsSpace :=
      dropWhile_eq_self_of_head _ _ (fun c hc => head?_dropWhile_false _ _ _ hc)
    show ((((s.dropWhile pyIsSpace).reverse.dropWhile
        pyIsSpace).reverse.dropWhile pyIsSpace).reverse.dropWhile pyIsSpace).reverse =
      ((s.dropWhile pyIsSpace).reverse.dropWhile pyIsSpace).reverse
    rw [dropWhile_eq_self_of_head _ _ hhead, List.reverse_reverse, hBB]

/-- A prefix avoiding the separator cell stays within the left block. -/
theorem prefix_append_mid {t xs ys : List α} {m : α} :
    t <+: xs ++ m :: ys → m ∉ t → t <+: xs := by
  induction xs generalizing t with
  | nil =>
    intro h hm
    rw [List.nil_append] at h
    rcases List.prefix_cons_iff.mp h with rfl | ⟨t2, rfl, _⟩
    · exact List.nil_prefix
    · exact absurd (List.mem_cons_self m t2) hm
  | cons x xs ih =>
    intro h hm
    rw [List.cons_append] at h
    rcases List.prefix_cons_iff.mp h with rfl | ⟨t2, rfl, ht2⟩
    · exact List.nil_prefix
    · have h2 := ih ht2 (fun hmem => hm (List.mem_cons_of_mem x hmem))
      exact List.cons_prefix_cons.mpr ⟨rfl, h2⟩

/-- Suffix decomposition around a separator cell. -/
theorem suffix_append_mid {s xs ys : List α} {m : α} :
    s <:+ xs ++ m :: ys → s <:+ ys ∨ ∃ xs2, xs2 <:+ xs ∧ s = xs2 ++ m :: ys := by
  induction xs generalizing s with
  | nil =>
    intro h
    rw [List.nil_append] at h
    rcases List.suffix_cons_iff.mp h with rfl | h2
    · exact Or.inr ⟨[], List.nil_suffix, rfl⟩
    · exact Or.inl h2
  | cons x xs ih =>
    intro h
    rw [List.cons_append] at h
    rcases List.suffix_cons_iff.mp h with rfl | h2
    · exact Or.inr ⟨x :: xs, List.suffix_refl _, by rw [List.cons_append]⟩
    · rcases ih h2 with h3 | ⟨xs2, hxs2, rfl⟩
      · exact Or.inl h3
      · exact Or.inr ⟨xs2, hxs2.trans (List.suffix_cons x xs), rfl⟩

/-- An infix avoiding the separator cell lies in one of the two blocks. -/
theorem infix_append_mid {t xs ys : List α} {m : α} (h : t <:+: xs ++ m :: ys)
    (hm : m ∉ t) : t <:+: xs ∨ t <:+: ys := by
  rcases List.infix_iff_prefix_suffix.mp h with ⟨u, htu, hu⟩
  rcases suffix_append_mid hu with h2 | ⟨xs2, hxs2, rfl⟩
  · exact Or.inr (List.infix_iff_prefix_suffix.mpr ⟨u, htu, h2⟩)
  · exact Or.inl
      (List.infix_iff_prefix_suffix.mpr ⟨xs2, prefix_append_mid htu hm, hxs2⟩)

/-- A newline-free infix of joined lines is the empty string or an infix of
one of the lines. -/
theorem infix_joinNL {t : Str} : ∀ {L : List Str}, '\n' ∉ t →
    t <:+: joinNL L → t = [] ∨ ∃ l ∈ L, t <:+: l := by
  intro L
  induction L with
  | nil =>
    intro _ h
    have hl := h.length_le
    simp only [joinNL, List.length_nil, Nat.le_zero, List.length_eq_zero] at hl
    exact Or.inl hl
  | cons l ls ih =>
    intro hm h
    cases ls with
    | nil =>
      right
      exact ⟨l, List.mem_cons_self _ _, by simpa [joinNL] using h⟩
    | cons l2 ls2 =>
      rw [show joinNL (l :: l2 :: ls2) = l ++ '\n' :: joinNL (l2 :: ls2) from rfl] at h
      rcases infix_append_mid h hm with h2 | h2
      · exact Or.inr ⟨l, List.mem_cons_self _ _, h2⟩
      · rcases ih hm h2 with rfl | ⟨l3, hl3, h4⟩
        · exact Or.inl rfl
        · exact Or.inr ⟨l3, List.mem_cons_of_mem l hl3, h4⟩

/-- A successful literal match survives appending to the input. -/
theorem matchLit_append {lit s r : Str} (post : Str) (h : matchLit lit s = some r) :
    matchLit lit (s ++ post) = some (r ++ post) := by
  induction lit generalizing s with
  | nil =>
    simp only [matchLit, Option.some.injEq] at h
    simp only [matchLit, Option.some.injEq]
    rw [h]
  | cons a as ih =>
    cases s with
    | nil => simp [matchLit] at h
    | cons b bs =>
      rw [List.cons_append]
      simp only [matchLit] at h ⊢
      by_cases hb : b = a
      · rw [if_pos hb] at h ⊢
        exact ih h
      · rw [if_neg hb] at h
        cases h

/-- A `dropWhile` reaching a surviving character survives appending. -/
theorem dropWhile_append_cons {p : Char → Bool} {l w : Str} {c : Char} (m : Str)
    (h : l.dropWhile p = c :: w) : (l ++ m).dropWhile p = c :: (w ++ m) := by
  induction l with
  | nil => simp [List.dropWhile] at h
  | cons a as ih =>
    rw [List.dropWhile_cons] at h
    rw [List.cons_append, List.dropWhile_cons]
    by_cases hp : p a
    · rw [if_pos hp] at h ⊢
      exact ih h
    · rw [if_neg hp] at h ⊢
      injection h with h1 h2
      rw [h1, h2]

/-- The final-answer mark at a position survives appending to the text. -/
theorem matchFinalMarkAt_append {s : Str} (post : Str)
    (h : matchFinalMarkAt s = true) : matchFinalMarkAt (s ++ post) = true := by
  cases s with
  | nil => cases h
  | cons c r =>
    rw [List.cons_append]
    simp only [matchFinalMarkAt] at h ⊢
    by_cases hcf : (c = 'F' || c = 'f') = true
    · rw [if_pos hcf] at h ⊢
      cases hml : matchLit ("inal answer".toList) r with
      | none => rw [hml] at h; cases h
      | some r2 =>
        rw [hml] at h
        rw [matchLit_append post hml]
        dsimp only at h ⊢
        cases hdw : r2.dropWhile pyIsSpace with
        | nil => rw [hdw] at h; cases h
        | cons d ds =>
          rw [hdw] at h
          rw [dropWhile_append_cons post hdw]
          exact h
    · rw [if_neg hcf] at h
      cases h

/-- The correct-answer mark at a position survives appending to the text. -/
theorem matchCorrectMarkAt_append {s : Str} (post : Str)
    (h : matchCorrectMarkAt s = true) : matchCorrectMarkAt (s ++ post) = true := by
  cases s with
  | nil => cases h
  | cons c r =>
    rw [List.cons_append]
    simp only [matchCorrectMarkAt] at h ⊢
    by_cases hcf : (c = 'T' || c = 't') = true
    · rw [if_pos hcf] at h ⊢
      cases hml : matchLit ("he correct answer is".toList) r with
      | none => rw [hml] at h; cases h
      | some r2 =>
        rw [matchLit_append post hml]
        rfl
    · rw [if_neg hcf] at h
      cases h

/-- `searchBool` succeeds iff the matcher fires on some suffix. -/
theorem searchBool_iff (m : Str → Bool) (s : Str) :
    searchBool m s = true ↔ ∃ u, u <:+ s ∧ m u = true := by
  induction s with
  | nil =>
    simp only [searchBool]
    constructor
    · intro h
      exact ⟨[], List.nil_suffix, h⟩
    · rintro ⟨u, hu, hm⟩
      rw [List.suffix_nil.mp hu] at hm
      exact hm
  | cons c cs ih =>
    simp only [searchBool, Bool.or_eq_true, ih]
    constructor
    · rintro (h | ⟨u, hu, hm⟩)
      · exact ⟨c :: cs, List.suffix_refl _, h⟩
      · exact ⟨u, hu.trans (List.suffix_cons c cs), hm⟩
    · rintro ⟨u, hu, hm⟩
      rcases List.suffix_cons_iff.mp hu with rfl | hu2
      · exact Or.inl hm
      · exact Or.inr ⟨u, hu2, hm⟩

/-- A line-search whose matcher is append-monotone is infix-monotone. -/
theorem searchBool_mono_infix (m : Str → Bool)
    (hmono : ∀ u post, m u = true → m (u ++ post) = true)
    {t l : Str} (ht : t <:+: l) (h : searchBool m t = true) :
    searchBool m l = true := by
  rcases (searchBool_iff m t).mp h with ⟨u, hu, hm⟩
  rcases ht with ⟨pre, post, hpl⟩
  rcases hu with ⟨w, hw⟩
  apply (searchBool_iff m l).mpr
  refine ⟨u ++ post, ⟨pre ++ w, ?_⟩, hmono u post hm⟩
  rw [← hpl, ← hw]
  simp [List.append_assoc]

/-- The loop of the splitter at a hit index. -/
theorem firstSplitAt_eq_some {p : Str → Bool} :
    ∀ (L : List Str) (i : ℕ) (hi : i < L.length),
      p (L.get ⟨i, hi⟩) = true →
      (∀ j (hj : j < L.length), j < i → p (L.get ⟨j, hj⟩) = false) →
      firstSplitAt p L = some (L.take i, L.get ⟨i, hi⟩)
  | [], i, hi => absurd hi (by simp)
  | l :: ls, 0, hi => fun hp _ => by
      simp only [List.get] at hp
      simp [firstSplitAt, hp]
  | l :: ls, i + 1, hi => fun hp hmin => by
      have hl : p l = false := hmin 0 (by omega) (by omega)
      have hrec := firstSplitAt_eq_some ls i (by simpa using hi)
        (by simpa using hp)
        (fun j hj hji => by
          have := hmin (j + 1) (by simpa using hj) (by omega)
          simpa using this)
      simp only [firstSplitAt, hl, Bool.false_eq_true, if_false, hrec]
      simp

/-- The loop of the splitter with no hit. -/
theorem firstSplitAt_eq_none {p : Str → Bool} {L : List Str}
    (h : ∀ l ∈ L, p l = false) : firstSplitAt p L = none := by
  induction L with
  | nil => rfl
  | cons l ls ih =>
    have hl := h l (List.mem_cons_self l ls)
    simp only [firstSplitAt, hl, Bool.false_eq_true, if_false]
    rw [ih (fun x hx => h x (List.mem_cons_of_mem l hx))]

/-- What a successful split says about its pieces. -/
theorem firstSplitAt_some_facts {p : Str → Bool} :
    ∀ {L : List Str} {pre : List Str} {fl : Str},
      firstSplitAt p L = some (pre, fl) →
      p fl = true ∧ (∀ l ∈ pre, p l = false) ∧ fl ∈ L ∧ (∀ l ∈ pre, l ∈ L) := by
  intro L
  induction L with
  | nil => intro pre fl h; cases h
  | cons l ls ih =>
    intro pre fl h
    by_cases hl : p l = true
    · simp only [firstSplitAt, hl, if_true, Option.some.injEq, Prod.mk.injEq] at h
      rcases h with ⟨rfl, rfl⟩
      exact ⟨hl, by simp, List.mem_cons_self l ls, by simp⟩
    · have hlf : p l = false := by
        cases hpv : p l
        · rfl
        · exact absurd hpv hl
      simp only [firstSplitAt, hlf, Bool.false_eq_true, if_false] at h
      cases hrec : firstSplitAt p ls with
      | none => rw [hrec] at h; cases h
      | some pf =>
        obtain ⟨pre2, fl2⟩ := pf
        rw [hrec] at h
        simp only [Option.some.injEq, Prod.mk.injEq] at h
        rcases h with ⟨rfl, rfl⟩
        obtain ⟨hp, hpre, hmem, hsub⟩ := ih hrec
        refine ⟨hp, ?_, List.mem_cons_of_mem l hmem, ?_⟩
        · intro x hx
          rcases List.mem_cons.mp hx with rfl | hx2
          · exact hlf
          · exact hpre x hx2
        · intro x hx
          rcases List.mem_cons.mp hx with rfl | hx2
          · exact List.mem_cons_self x ls
          · exact List.mem_cons_of_mem l (hsub x hx2)

/-- Lines of a split text contain no newline. -/
theorem no_newline_of_mem_pySplitlines {s l : Str}
    (hl : l ∈ pySplitlines s) : '\n' ∉ l := by
  unfold pySplitlines at hl
  by_cases hs : s = []
  · rw [if_pos hs] at hl; cases hl
  · rw [if_neg hs] at hl
    exact no_newline_of_mem_pySplitlinesGo s l hl

/-- The stripped text has no trailing newline. -/
theorem pyStrip_getLast_ne_newline (s : Str) :
    (pyStrip s).getLast? ≠ some '\n' := by
  intro h
  unfold pyStrip at h
  rw [List.getLast?_reverse] at h
  exact absurd (head?_dropWhile_false pyIsSpace _ _ h) (by decide)

/-- Joining the lines of the stripped text recovers it. -/
theorem joinNL_pySplitlines_pyStrip (text : Str) :
    joinNL (pySplitlines (pyStrip text)) = pyStrip text := by
  unfold pySplitlines
  by_cases hs : pyStrip text = []
  · rw [if_pos hs, hs]; rfl
  · rw [if_neg hs]
    exact joinNL_pySplitlinesGo _ hs (pyStrip_getLast_ne_newline text)

/-- C8, counterexample: on the text `"Final Answer: A"` the only line
matches `"final answer:"` case-insensitively, yet the splitter leaves the
final line empty and the whole text as reasoning — the source pattern
`[Ff]inal answer` is case-sensitive beyond its first letter. -/
theorem C8_counterexample :
    specLineMatchesFinalAnswerCI ("Final Answer: A".toList) = true ∧
    "Final Answer: A".toList ∈ pySplitlines (pyStrip ("Final Answer: A".toList)) ∧
    (split_reasoning_and_final_answer ("Final Answer: A".toList)).2 = [] ∧
    (split_reasoning_and_final_answer ("Final Answer: A".toList)).1 =
      "Final Answer: A".toList := by
  decide

/-- C8, amended: scanning lines top-to-bottom, the first line matching
`[Ff]inal answer` followed by optional whitespace and `:` or `-` (only the
leading letter is case-flexible) becomes the final line and everything
strictly before it the reasoning; failing that, the first line matching
`[Tt]he correct answer is` does; if neither pattern appears the entire
(stripped) text is the reasoning and the final line is empty; and the
reasoning never contains a non-empty final line's content. -/
theorem C8_amended (text : Str) :
    (∀ (i : ℕ) (hi : i < (pySplitlines (pyStrip text)).length),
      lineHasFinalMark ((pySplitlines (pyStrip text)).get ⟨i, hi⟩) = true →
      (∀ (j : ℕ) (hj : j < (pySplitlines (pyStrip text)).length), j < i →
        lineHasFinalMark ((pySplitlines (pyStrip text)).get ⟨j, hj⟩) = false) →
      (split_reasoning_and_final_answer text).2 =
        (pySplitlines (pyStrip text)).get ⟨i, hi⟩ ∧
      (split_reasoning_and_final_answer text).1 =
        pyStrip (joinNL ((pySplitlines (pyStrip text)).take i))) ∧
    ((∀ l ∈ pySplitlines (pyStrip text), lineHasFinalMark l = false) →
      ∀ (i : ℕ) (hi : i < (pySplitlines (pyStrip text)).length),
      lineHasCorrectMark ((pySplitlines (pyStrip text)).get ⟨i, hi⟩) = true →
      (∀ (j : ℕ) (hj : j < (pySplitlines (pyStrip text)).length), j < i →
        lineHasCorrectMark ((pySplitlines (pyStrip text)).get ⟨j, hj⟩) = false) →
      (split_reasoning_and_final_answer text).2 =
        (pySplitlines (pyStrip text)).get ⟨i, hi⟩ ∧
      (split_reasoning_and_final_answer text).1 =
        pyStrip (joinNL ((pySplitlines (pyStrip text)).take i))) ∧
    ((∀ l ∈ pySplitlines (pyStrip text), lineHasFinalMark l = false) →
      (∀ l ∈ pySplitlines (pyStrip text), lineHasCorrectMark l = false) →
      (split_reasoning_and_final_answer text).2 = [] ∧
      (split_reasoning_and_final_answer text).1 = pyStrip text) ∧
    ((split_reasoning_and_final_answer text).2 ≠ [] →
      ¬((split_reasoning_and_final_answer text).2 <:+:
        (split_reasoning_and_final_answer text).1)) := by
  refine ⟨?_, ?_, ?_, ?_⟩
  · intro i hi hp hmin
    have heq := firstSplitAt_eq_some (p := lineHasFinalMark)
      (pySplitlines (pyStrip text)) i hi hp hmin
    simp only [split_reasoning_and_final_answer, heq]
    constructor <;> first | trivial | rfl
  · intro hnone i hi hp hmin
    have hn := firstSplitAt_eq_none (p := lineHasFinalMark) hnone
    have heq := firstSplitAt_eq_some (p := lineHasCorrectMark)
      (pySplitlines (pyStrip text)) i hi hp hmin
    simp only [split_reasoning_and_final_answer, hn, heq]
    constructor <;> first | trivial | rfl
  · intro h1 h2
    have hn1 := firstSplitAt_eq_none (p := lineHasFinalMark) h1
    have hn2 := firstSplitAt_eq_none (p := lineHasCorrectMark) h2
    simp only [split_reasoning_and_final_answer, hn1, hn2]
    refine ⟨by first | trivial | rfl, ?_⟩
    rw [joinNL_pySplitlines_pyStrip, pyStrip_idem]
  · intro hne hctr
    cases hfa : firstSplitAt lineHasFinalMark (pySplitlines (pyStrip text)) with
    | some pf =>
      obtain ⟨pre, fl⟩ := pf
      obtain ⟨hp, hpre, hmem, _⟩ := firstSplitAt_some_facts hfa
      have hr : split_reasoning_and_final_answer text = (pyStrip (joinNL pre), fl) := by
        simp only [split_reasoning_and_final_answer, hfa]
      rw [hr] at hctr hne
      dsimp only at hctr hne
      have h1 : fl <:+: joinNL pre := hctr.trans (pyStrip_infix_self _)
      have hnl : '\n' ∉ fl := no_newline_of_mem_pySplitlines hmem
      rcases infix_joinNL hnl h1 with rfl | ⟨l, hl, hinf⟩
      · exact hne rfl
      · have hth : lineHasFinalMark l = true :=
          searchBool_mono_infix matchFinalMarkAt
            (fun u post h => matchFinalMarkAt_append post h) hinf hp
        rw [hpre l hl] at hth
        cases hth
    | none =>
      cases hca : firstSplitAt lineHasCorrectMark (pySplitlines (pyStrip text)) with
      | none =>
        have h2 : (split_reasoning_and_final_answer text).2 = [] := by
          simp only [split_reasoning_and_final_answer, hfa, hca]
        exact hne h2
      | some pf =>
        obtain ⟨pre, fl⟩ := pf
        obtain ⟨hp, hpre, hmem, _⟩ := firstSplitAt_some_facts hca
        have hr : split_reasoning_and_final_answer text =
            (pyStrip (joinNL pre), fl) := by
          simp only [split_reasoning_and_final_answer, hfa, hca]
        rw [hr] at hctr hne
        dsimp only at hctr hne
        have h1 : fl <:+: joinNL pre := hctr.trans (pyStrip_infix_self _)
        have hnl : '\n' ∉ fl := no_newline_of_mem_pySplitlines hmem
        rcases infix_joinNL hnl h1 with rfl | ⟨l, hl, hinf⟩
        · exact hne rfl
        · have hth : lineHasCorrectMark l = true :=
            searchBool_mono_infix matchCorrectMarkAt
              (fun u post h => matchCorrectMarkAt_append post h) hinf hp
          rw [hpre l hl] at hth
          cases hth

/-- Witness for `C8_amended` on `"x\nFinal answer: B"`, whose second line
carries the final-answer mark. -/
theorem C8_amended_witness :
    (split_reasoning_and_final_answer ("x\nFinal answer: B".toList)).2 =
      (pySplitlines (pyStrip ("x\nFinal answer: B".toList))).get ⟨1, by decide⟩ ∧
    (split_reasoning_and_final_answer ("x\nFinal answer: B".toList)).1 =
      pyStrip (joinNL ((pySplitlines (pyStrip ("x\nFinal answer: B".toList))).take 1)) :=
  (C8_amended ("x\nFinal answer: B".toList)).1 1 (by decide) (by decide)
    (fun j hj hji => by
      have hj0 : j = 0 := by
        have h1 : j < 1 := hji
        omega
      subst hj0
      have hget : (pySplitlines (pyStrip ("x\nFinal answer: B".toList))).get ⟨0, hj⟩ =
          "x".toList := rfl
      rw [hget]
      decide)

/-! ### Metrics bridge: the grouping dictionary -/

/-- `dedupFirst` preserves membership. -/
theorem mem_dedupFirst [DecidableEq α] {x : α} :
    ∀ {l : List α}, x ∈ dedupFirst l ↔ x ∈ l := by
  intro l
  induction l with
  | nil => simp [dedupFirst]
  | cons a as ih =>
    simp only [dedupFirst, List.mem_cons, List.mem_filter]
    constructor
    · rintro (rfl | ⟨hx, _⟩)
      · exact Or.inl rfl
      · exact Or.inr (ih.mp hx)
    · rintro (rfl | hx)
      · exact Or.inl rfl
      · by_cases hxa : x = a
        · exact Or.inl hxa
        · exact Or.inr ⟨ih.mpr hx, by simpa using hxa⟩

/-- `dedupFirst` has no duplicates. -/
theorem nodup_dedupFirst [DecidableEq α] : ∀ (l : List α), (dedupFirst l).Nodup := by
  intro l
  induction l with
  | nil => simp [dedupFirst]
  | cons a as ih =>
    simp only [dedupFirst, List.nodup_cons]
    refine ⟨?_, ih.filter _⟩
    intro hmem
    rcases List.mem_filter.mp hmem with ⟨_, hne⟩
    simp at hne

/-- One-step bucket lookup through `addToGroups`. -/
theorem findBucket_addToGroups (gs : List (GroupKey × List ScoredRow))
    (r : ScoredRow) (k : GroupKey) :
    findBucket (addToGroups gs r) k =
      if groupKeyOf r = k then some (((findBucket gs k).getD []) ++ [r])
      else findBucket gs k := by
  induction gs with
  | nil =>
    by_cases h : groupKeyOf r = k
    · simp [addToGroups, findBucket, h]
    · simp [addToGroups, findBucket, h]
  | cons g gs ih =>
    obtain ⟨k0, b⟩ := g
    by_cases h0 : k0 = groupKeyOf r
    · have hadd : addToGroups ((k0, b) :: gs) r = (k0, b ++ [r]) :: gs := by
        simp only [addToGroups, if_pos h0]
      rw [hadd]
      by_cases hk : k0 = k
      · have hgk : groupKeyOf r = k := h0 ▸ hk
        simp only [findBucket, if_pos hk, if_pos hgk, Option.getD_some]
      · have hgk : ¬(groupKeyOf r = k) := fun he => hk (h0.trans he)
        simp only [findBucket, if_neg hk, if_neg hgk]
    · have hadd : addToGroups ((k0, b) :: gs) r = (k0, b) :: addToGroups gs r := by
        simp only [addToGroups, if_neg h0]
      rw [hadd]
      by_cases hk : k0 = k
      · have hgk : ¬(groupKeyOf r = k) := fun he => h0 (hk.trans he.symm)
        simp only [findBucket, if_pos hk, if_neg hgk]
      · simp only [findBucket, if_neg hk, ih]

/-- Bucket lookup through the grouping fold, generalized over the
accumulator. -/
theorem findBucket_foldl (rows : List ScoredRow) :
    ∀ (acc : List (GroupKey × List ScoredRow)) (k : GroupKey),
      findBucket (rows.foldl addToGroups acc) k =
        match findBucket acc k with
        | some b => some (b ++ rows.filter (fun r => groupKeyOf r = k))
        | none =>
          if rows.filter (fun r => groupKeyOf r = k) = [] then none
          else some (rows.filter (fun r => groupKeyOf r = k)) := by
  induction rows with
  | nil =>
    intro acc k
    cases h : findBucket acc k <;> simp [h]
  | cons r rs ih =>
    intro acc k
    rw [List.foldl_cons, ih, findBucket_addToGroups]
    by_cases hr : groupKeyOf r = k
    · have hfc : (r :: rs).filter (fun x => groupKeyOf x = k) =
          r :: rs.filter (fun x => groupKeyOf x = k) := by
        simp [List.filter_cons, hr]
      rw [if_pos hr, hfc]
      cases h : findBucket acc k with
      | none =>
        dsimp only
        simp
      | some b =>
        dsimp only
        simp [List.append_assoc]
    · have hfc : (r :: rs).filter (fun x => groupKeyOf x = k) =
          rs.filter (fun x => groupKeyOf x = k) := by
        simp [List.filter_cons, hr]
      rw [if_neg hr, hfc]

/-- Bucket lookup in the full grouping dictionary. -/
theorem findBucket_buildGroups (rows : List ScoredRow) (k : GroupKey) :
    findBucket (buildGroups rows) k =
      if rows.filter (fun r => groupKeyOf r = k) = [] then none
      else some (rows.filter (fun r => groupKeyOf r = k)) := by
  have h := findBucket_foldl rows [] k
  simpa [findBucket, buildGroups] using h

/-- Bucket lookup succeeds exactly on present keys. -/
theorem findBucket_isSome_iff (gs : List (GroupKey × List ScoredRow))
    (k : GroupKey) :
    (findBucket gs k).isSome = true ↔ k ∈ gs.map Prod.fst := by
  induction gs with
  | nil => simp [findBucket]
  | cons g gs ih =>
    obtain ⟨k0, b⟩ := g
    simp only [findBucket, List.map_cons, List.mem_cons]
    by_cases hk : k0 = k
    · simp [hk]
    · simp only [if_neg hk, ih]
      constructor
      · exact Or.inr
      · rintro (rfl | h)
        · exact absurd rfl hk
        · exact h

/-- Keys after one insertion. -/
theorem keys_addToGroups (gs : List (GroupKey × List ScoredRow)) (r : ScoredRow) :
    (addToGroups gs r).map Prod.fst =
      if groupKeyOf r ∈ gs.map Prod.fst then gs.map Prod.fst
      else gs.map Prod.fst ++ [groupKeyOf r] := by
  induction gs with
  | nil => simp [addToGroups]
  | cons g gs ih =>
    obtain ⟨k0, b⟩ := g
    simp only [addToGroups, List.map_cons, List.mem_cons]
    by_cases h0 : k0 = groupKeyOf r
    · subst h0
      simp
    · rw [if_neg h0, List.map_cons, ih]
      by_cases hmem : groupKeyOf r ∈ gs.map Prod.fst
      · rw [if_pos hmem, if_pos (Or.inr hmem)]
      · rw [if_neg hmem,
          if_neg (by rintro (h | h); exact h0 h.symm; exact hmem h),
          List.cons_append]

/-- The grouping fold keeps the key list duplicate-free. -/
theorem nodup_keys_foldl (rows : List ScoredRow) :
    ∀ (acc : List (GroupKey × List ScoredRow)),
      (acc.map Prod.fst).Nodup → ((rows.foldl addToGroups acc).map Prod.fst).Nodup := by
  induction rows with
  | nil => intro acc h; exact h
  | cons r rs ih =>
    intro acc h
    rw [List.foldl_cons]
    apply ih
    rw [keys_addToGroups]
    by_cases hmem : groupKeyOf r ∈ acc.map Prod.fst
    · rwa [if_pos hmem]
    · rw [if_neg hmem]
      simp [List.nodup_append, h, hmem]

/-- The key list of the grouping dictionary is duplicate-free. -/
theorem nodup_keys_buildGroups (rows : List ScoredRow) :
    ((buildGroups rows).map Prod.fst).Nodup :=
  nodup_keys_foldl rows [] (by simp)

/-- Bucket lookup of a member entry, given duplicate-free keys. -/
theorem findBucket_of_mem :
    ∀ {gs : List (GroupKey × List ScoredRow)}, (gs.map Prod.fst).Nodup →
      ∀ {g : GroupKey × List ScoredRow}, g ∈ gs → findBucket gs g.1 = some g.2 := by
  intro gs
  induction gs with
  | nil => intro _ g hg; cases hg
  | cons g0 gs ih =>
    intro hnd g hg
    obtain ⟨k0, b0⟩ := g0
    rw [List.map_cons, List.nodup_cons] at hnd
    rcases List.mem_cons.mp hg with rfl | hg2
    · simp [findBucket]
    · have hne : k0 ≠ g.1 := by
        intro he
        have hmm : g.1 ∈ gs.map Prod.fst := List.mem_map_of_mem Prod.fst hg2
        rw [← he] at hmm
        exact hnd.1 hmm
      simp only [findBucket, if_neg hne]
      exact ih hnd.2 hg2

/-- A member group of the grouping dictionary is the filter of its key. -/
theorem bucket_eq_filter {rows : List ScoredRow} {g : GroupKey × List ScoredRow}
    (hg : g ∈ buildGroups rows) :
    g.2 = rows.filter (fun r => groupKeyOf r = g.1) := by
  have h1 := findBucket_of_mem (nodup_keys_buildGroups rows) hg
  rw [findBucket_buildGroups] at h1
  by_cases hf : rows.filter (fun r => groupKeyOf r = g.1) = []
  · rw [if_pos hf] at h1; cases h1
  · rw [if_neg hf] at h1
    exact (Option.some.injEq .. ▸ h1 : _ = _).symm

/-! ### Metrics bridge: the statistics dictionary -/

/-- One-step statistics lookup through `addGroupEntry`. -/
theorem findStats_addGroupEntry (qs : List (AggKey × QStats))
    (g : GroupKey × List ScoredRow) (a : AggKey) :
    findStats (addGroupEntry qs g) a =
      if aggOfKey g.1 = a then
        some (addGroupToStats ((findStats qs a).getD QStats.zero) g.2)
      else findStats qs a := by
  obtain ⟨k, b⟩ := g
  induction qs with
  | nil =>
    by_cases h : aggOfKey k = a
    · simp [addGroupEntry, findStats, h]
    · simp [addGroupEntry, findStats, h]
  | cons e qs ih =>
    obtain ⟨a0, q⟩ := e
    by_cases h0 : a0 = aggOfKey k
    · have hadd : addGroupEntry ((a0, q) :: qs) (k, b) =
          (a0, addGroupToStats q b) :: qs := by
        simp only [addGroupEntry, if_pos h0]
      rw [hadd]
      by_cases ha : a0 = a
      · have hga : aggOfKey k = a := h0 ▸ ha
        simp only [findStats, if_pos ha, if_pos hga, Option.getD_some]
      · have hga : ¬(aggOfKey k = a) := fun he => ha (h0.trans he)
        simp only [findStats, if_neg ha, if_neg hga]
    · have hadd : addGroupEntry ((a0, q) :: qs) (k, b) =
          (a0, q) :: addGroupEntry qs (k, b) := by
        simp only [addGroupEntry, if_neg h0]
      rw [hadd]
      by_cases ha : a0 = a
      · have hga : ¬(aggOfKey k = a) := fun he => h0 (ha.trans he.symm)
        simp only [findStats, if_pos ha, if_neg hga]
      · simp only [findStats, if_neg ha, ih]

/-- Statistics lookup through the aggregation fold, generalized over the
accumulator. -/
theorem findStats_foldl (gs : List (GroupKey × List ScoredRow)) :
    ∀ (acc : List (AggKey × QStats)) (a : AggKey),
      findStats (gs.foldl addGroupEntry acc) a =
        if gs.filter (fun g => aggOfKey g.1 = a) = [] then findStats acc a
        else
          some ((gs.filter (fun g => aggOfKey g.1 = a)).foldl
            (fun q g => addGroupToStats q g.2)
            ((findStats acc a).getD QStats.zero)) := by
  induction gs with
  | nil => intro acc a; simp
  | cons g gs ih =>
    intro acc a
    rw [List.foldl_cons, ih]
    by_cases hg : aggOfKey g.1 = a
    · have hfc : (g :: gs).filter (fun x => aggOfKey x.1 = a) =
          g :: gs.filter (fun x => aggOfKey x.1 = a) := by
        simp [List.filter_cons, hg]
      rw [hfc, findStats_addGroupEntry, if_pos hg]
      by_cases hfil : gs.filter (fun x => aggOfKey x.1 = a) = []
      · rw [if_pos hfil, if_neg (by simp), hfil]
        simp
      · rw [if_neg hfil, if_neg (by simp), List.foldl_cons]
        simp
    · have hfc : (g :: gs).filter (fun x => aggOfKey x.1 = a) =
          gs.filter (fun x => aggOfKey x.1 = a) := by
        simp [List.filter_cons, hg]
      rw [hfc, findStats_addGroupEntry, if_neg hg]

/-- Statistics lookup in the full statistics dictionary. -/
theorem findStats_buildQuestionStats (gs : List (GroupKey × List ScoredRow))
    (a : AggKey) :
    findStats (buildQuestionStats gs) a =
      if gs.filter (fun g => aggOfKey g.1 = a) = [] then none
      else some (statsOfGroups (gs.filter (fun g => aggOfKey g.1 = a))) := by
  have h := findStats_foldl gs [] a
  simpa [buildQuestionStats, findStats, statsOfGroups] using h

/-- All scalar fields and both label dictionaries of the statistics fold. -/
theorem statsFold_fields (gsa : List (GroupKey × List ScoredRow)) :
    ∀ q0 : QStats,
      (gsa.foldl (fun q g => addGroupToStats q g.2) q0).num_questions =
        q0.num_questions + gsa.length ∧
      (gsa.foldl (fun q g => addGroupToStats q g.2) q0).num_correct_answers =
        q0.num_correct_answers + (gsa.map (fun g => bucketCorrect g.2)).sum ∧
      (gsa.foldl (fun q g => addGroupToStats q g.2) q0).num_samples =
        q0.num_samples + (gsa.map (fun g => g.2.length)).sum ∧
      (gsa.foldl (fun q g => addGroupToStats q g.2) q0).num_refusals =
        q0.num_refusals + (gsa.map (fun g => bucketRefusals g.2)).sum ∧
      (gsa.foldl (fun q g => addGroupToStats q g.2) q0).sum_reasoning_tokens =
        q0.sum_reasoning_tokens + (gsa.map (fun g => bucketTokens g.2)).sum ∧
      (gsa.foldl (fun q g => addGroupToStats q g.2) q0).num_with_all_correct =
        q0.num_with_all_correct +
          gsa.countP (fun g => bucketCorrect g.2 = g.2.length) ∧
      (gsa.foldl (fun q g => addGroupToStats q g.2) q0).num_with_ge_23_correct =
        q0.num_with_ge_23_correct +
          gsa.countP (fun g => min 23 g.2.length ≤ bucketCorrect g.2) ∧
      (gsa.foldl (fun q g => addGroupToStats q g.2) q0).num_with_ge_13_correct =
        q0.num_with_ge_13_correct +
          gsa.countP (fun g => min 13 g.2.length ≤ bucketCorrect g.2) ∧
      (gsa.foldl (fun q g => addGroupToStats q g.2) q0).subjects =
        foldLabel bucketSubject gsa q0.subjects ∧
      (gsa.foldl (fun q g => addGroupToStats q g.2) q0).difficulties =
        foldLabel bucketDifficulty gsa q0.difficulties := by
  induction gsa with
  | nil =>
    intro q0
    simp [foldLabel]
  | cons g gs ih =>
    intro q0
    rw [List.foldl_cons]
    obtain ⟨h1, h2, h3, h4, h5, h6, h7, h8, h9, h10⟩ := ih (addGroupToStats q0 g.2)
    refine ⟨?_, ?_, ?_, ?_, ?_, ?_, ?_, ?_, ?_, ?_⟩
    · rw [h1]; simp only [addGroupToStats]; simp; omega
    · rw [h2]; simp only [addGroupToStats]; simp [List.map_cons]; omega
    · rw [h3]; simp only [addGroupToStats]; simp [List.map_cons]; omega
    · rw [h4]; simp only [addGroupToStats]; simp [List.map_cons]; omega
    · rw [h5]; simp only [addGroupToStats]; simp [List.map_cons]; omega
    · rw [h6]; simp only [addGroupToStats]; simp [List.countP_cons]; omega
    · rw [h7]; simp only [addGroupToStats]; simp [List.countP_cons]; omega
    · rw [h8]; simp only [addGroupToStats]; simp [List.countP_cons]; omega
    · rw [h9]
      simp only [addGroupToStats, foldLabel, List.foldl_cons]
    · rw [h10]
      simp only [addGroupToStats, foldLabel, List.foldl_cons]

/-! ### Metrics bridge: label dictionaries -/

/-- Lookup through one label bump. -/
theorem alistLookup_bumpLabel (d : List (String × (ℕ × ℕ))) (s : String)
    (c t : ℕ) (s' : String) :
    alistLookup (bumpLabel d s c t) s' =
      if s = s' then
        some (((alistLookup d s').getD (0, 0)).1 + c,
              ((alistLookup d s').getD (0, 0)).2 + t)
      else alistLookup d s' := by
  induction d with
  | nil =>
    by_cases h : s = s'
    · simp [bumpLabel, alistLookup, h]
    · simp [bumpLabel, alistLookup, h]
  | cons e d ih =>
    obtain ⟨s0, p⟩ := e
    by_cases h0 : s0 = s
    · have hb : bumpLabel ((s0, p) :: d) s c t = (s0, (p.1 + c, p.2 + t)) :: d := by
        simp only [bumpLabel, if_pos h0]
      rw [hb]
      by_cases hs' : s0 = s'
      · have hss : s = s' := h0 ▸ hs'
        simp only [alistLookup, if_pos hs', if_pos hss, Option.getD_some]
      · have hss : ¬(s = s') := fun he => hs' (h0.symm ▸ he)
        simp only [alistLookup, if_neg hs', if_neg hss]
    · have hb : bumpLabel ((s0, p) :: d) s c t = (s0, p) :: bumpLabel d s c t := by
        simp only [bumpLabel, if_neg h0]
      rw [hb]
      by_cases hs' : s0 = s'
      · have hss : ¬(s = s') := fun he => h0 (hs'.trans he.symm)
        simp only [alistLookup, if_pos hs', if_neg hss]
      · simp only [alistLookup, if_neg hs', ih]

/-- Lookup through the parametric label fold: the running pair of a
non-empty label accumulates the correct counts and sizes of the groups
carrying that label. -/
theorem alistLookup_foldLabel (labOf : List ScoredRow → Option String)
    (s : String) (hs : ¬(s = "")) (gsa : List (GroupKey × List ScoredRow)) :
    ∀ d0, alistLookup (foldLabel labOf gsa d0) s =
      if gsa.filter (fun g => labOf g.2 = some s) = [] then alistLookup d0 s
      else some
        (((alistLookup d0 s).getD (0, 0)).1 +
          ((gsa.filter (fun g => labOf g.2 = some s)).map
            (fun g => bucketCorrect g.2)).sum,
         ((alistLookup d0 s).getD (0, 0)).2 +
          ((gsa.filter (fun g => labOf g.2 = some s)).map
            (fun g => g.2.length)).sum) := by
  induction gsa with
  | nil => intro d0; simp [foldLabel]
  | cons g gs ih =>
    intro d0
    have hfold : foldLabel labOf (g :: gs) d0 =
        foldLabel labOf gs
          (maybeBumpLabel d0 (labOf g.2) (bucketCorrect g.2) g.2.length) := by
      simp [foldLabel, List.foldl_cons]
    rw [hfold]
    cases hlab : labOf g.2 with
    | none =>
      have hfc : (g :: gs).filter (fun x => labOf x.2 = some s) =
          gs.filter (fun x => labOf x.2 = some s) := by
        simp [List.filter_cons, hlab]
      rw [hfc]
      simp only [maybeBumpLabel]
      exact ih d0
    | some s0 =>
      simp only [maybeBumpLabel]
      by_cases hs0 : s0 = ""
      · subst hs0
        rw [if_pos rfl]
        have hfc : (g :: gs).filter (fun x => labOf x.2 = some s) =
            gs.filter (fun x => labOf x.2 = some s) := by
          have : ¬("" = s) := fun he => hs he.symm
          simp [List.filter_cons, hlab, this]
        rw [hfc]
        exact ih d0
      · rw [if_neg hs0]
        by_cases hss : s0 = s
        · subst hss
          have hfc : (g :: gs).filter (fun x => labOf x.2 = some s0) =
              g :: gs.filter (fun x => labOf x.2 = some s0) := by
            simp [List.filter_cons, hlab]
          rw [hfc, ih (bumpLabel d0 s0 (bucketCorrect g.2) g.2.length),
            alistLookup_bumpLabel, if_pos rfl]
          by_cases hfil : gs.filter (fun x => labOf x.2 = some s0) = []
          · rw [if_pos hfil, if_neg (by simp), hfil]
            simp
          · rw [if_neg hfil, if_neg (by simp)]
            simp only [Option.getD_some, List.map_cons, List.sum_cons]
            refine congrArg some ?_
            refine Prod.ext ?_ ?_ <;> dsimp <;> omega
        · have hfc : (g :: gs).filter (fun x => labOf x.2 = some s) =
              gs.filter (fun x => labOf x.2 = some s) := by
            simp [List.filter_cons, hlab, hss]
          rw [hfc, ih (bumpLabel d0 s0 (bucketCorrect g.2) g.2.length),
            alistLookup_bumpLabel, if_neg hss]

/-- Keys after one label bump. -/
theorem keys_bumpLabel (d : List (String × (ℕ × ℕ))) (s : String) (c t : ℕ) :
    (bumpLabel d s c t).map Prod.fst =
      if s ∈ d.map Prod.fst then d.map Prod.fst else d.map Prod.fst ++ [s] := by
  induction d with
  | nil => simp [bumpLabel]
  | cons e d ih =>
    obtain ⟨s0, p⟩ := e
    by_cases h0 : s0 = s
    · subst h0
      simp [bumpLabel]
    · have hb : bumpLabel ((s0, p) :: d) s c t = (s0, p) :: bumpLabel d s c t := by
        simp only [bumpLabel, if_neg h0]
      rw [hb]
      simp only [List.map_cons, ih]
      by_cases hmem : s ∈ d.map Prod.fst
      · rw [if_pos hmem, if_pos (List.mem_cons.mpr (Or.inr hmem))]
      · rw [if_neg hmem,
          if_neg (fun h => by
            rcases List.mem_cons.mp h with h1 | h1
            · exact h0 h1.symm
            · exact hmem h1),
          List.cons_append]

/-- The label fold keeps the key list duplicate-free. -/
theorem nodup_keys_foldLabel (labOf : List ScoredRow → Option String)
    (gsa : List (GroupKey × List ScoredRow)) :
    ∀ d0 : List (String × (ℕ × ℕ)), (d0.map Prod.fst).Nodup →
      ((foldLabel labOf gsa d0).map Prod.fst).Nodup := by
  induction gsa with
  | nil => intro d0 h; simpa [foldLabel] using h
  | cons g gs ih =>
    intro d0 h
    have hfold : foldLabel labOf (g :: gs) d0 =
        foldLabel labOf gs
          (maybeBumpLabel d0 (labOf g.2) (bucketCorrect g.2) g.2.length) := by
      simp [foldLabel, List.foldl_cons]
    rw [hfold]
    apply ih
    cases hlab : labOf g.2 with
    | none => simpa [maybeBumpLabel] using h
    | some s0 =>
      simp only [maybeBumpLabel]
      by_cases hs0 : s0 = ""
      · rw [if_pos hs0]; exact h
      · rw [if_neg hs0, keys_bumpLabel]
        by_cases hmem : s0 ∈ d0.map Prod.fst
        · rwa [if_pos hmem]
        · rw [if_neg hmem]
          simp [List.nodup_append, h, hmem]

/-- Association lookup succeeds exactly on present keys. -/
theorem alistLookup_isSome_iff {β : Type} (d : List (String × β)) (k : String) :
    (alistLookup d k).isSome = true ↔ k ∈ d.map Prod.fst := by
  induction d with
  | nil => simp [alistLookup]
  | cons e d ih =>
    obtain ⟨k0, v⟩ := e
    simp only [alistLookup, List.map_cons, List.mem_cons]
    by_cases hk : k0 = k
    · simp [hk]
    · simp only [if_neg hk, ih]
      constructor
      · exact Or.inr
      · rintro (rfl | h)
        · exact absurd rfl hk
        · exact h

/-- Keys of the per-label accuracies come from the label dictionary. -/
theorem mem_keys_labelAccuracies {d : List (String × (ℕ × ℕ))} {lab : String}
    (h : lab ∈ (labelAccuracies d).map Prod.fst) : lab ∈ d.map Prod.fst := by
  induction d with
  | nil => simpa [labelAccuracies] using h
  | cons e d ih =>
    obtain ⟨s0, p⟩ := e
    rw [List.map_cons, List.mem_cons]
    by_cases hp : 0 < p.2
    · have hla : labelAccuracies ((s0, p) :: d) =
          (s0, (p.1 : ℝ) / (p.2 : ℝ)) :: labelAccuracies d := by
        simp [labelAccuracies, List.filterMap_cons, hp]
      rw [hla, List.map_cons] at h
      rcases List.mem_cons.mp h with h1 | h1
      · exact Or.inl h1
      · exact Or.inr (ih h1)
    · have hla : labelAccuracies ((s0, p) :: d) = labelAccuracies d := by
        simp [labelAccuracies, List.filterMap_cons, hp]
      rw [hla] at h
      exact Or.inr (ih h)

/-- Lookup in the per-label accuracies of a duplicate-free dictionary. -/
theorem alistLookup_labelAccuracies (d : List (String × (ℕ × ℕ)))
    (hnd : (d.map Prod.fst).Nodup) (lab : String) :
    alistLookup (labelAccuracies d) lab =
      (alistLookup d lab).bind
        (fun p => if 0 < p.2 then some ((p.1 : ℝ) / (p.2 : ℝ)) else none) := by
  induction d with
  | nil => simp [labelAccuracies, alistLookup]
  | cons e d ih =>
    obtain ⟨s0, p⟩ := e
    rw [List.map_cons, List.nodup_cons] at hnd
    by_cases hp : 0 < p.2
    · have hla : labelAccuracies ((s0, p) :: d) =
          (s0, (p.1 : ℝ) / (p.2 : ℝ)) :: labelAccuracies d := by
        simp [labelAccuracies, List.filterMap_cons, hp]
      rw [hla]
      by_cases hk : s0 = lab
      · simp only [alistLookup, if_pos hk]
        simp [hp]
      · simp only [alistLookup, if_neg hk]
        exact ih hnd.2
    · have hla : labelAccuracies ((s0, p) :: d) = labelAccuracies d := by
        simp [labelAccuracies, List.filterMap_cons, hp]
      rw [hla]
      by_cases hk : s0 = lab
      · subst hk
        have hnone : alistLookup (labelAccuracies d) s0 = none := by
          cases hres : alistLookup (labelAccuracies d) s0 with
          | none => rfl
          | some v =>
            exfalso
            have hmm : s0 ∈ (labelAccuracies d).map Prod.fst := by
              rw [← alistLookup_isSome_iff]
              simp [hres]
            exact hnd.1 (mem_keys_labelAccuracies hmm)
        rw [hnone]
        simp only [alistLookup, if_pos rfl]
        simp [hp]
      · simp only [alistLookup, if_neg hk]
        exact ih hnd.2

/-! ### Metrics bridge: the statistics dictionary as a whole -/

/-- Statistics lookup succeeds exactly on present keys. -/
theorem findStats_isSome_iff (qs : List (AggKey × QStats)) (a : AggKey) :
    (findStats qs a).isSome = true ↔ a ∈ qs.map Prod.fst := by
  induction qs with
  | nil => simp [findStats]
  | cons e qs ih =>
    obtain ⟨a0, q⟩ := e
    simp only [findStats, List.map_cons, List.mem_cons]
    by_cases ha : a0 = a
    · simp [ha]
    · simp only [if_neg ha, ih]
      constructor
      · exact Or.inr
      · rintro (rfl | h)
        · exact absurd rfl ha
        · exact h

/-- Keys after routing one group into the statistics dictionary. -/
theorem keys_addGroupEntry (qs : List (AggKey × QStats))
    (g : GroupKey × List ScoredRow) :
    (addGroupEntry qs g).map Prod.fst =
      if aggOfKey g.1 ∈ qs.map Prod.fst then qs.map Prod.fst
      else qs.map Prod.fst ++ [aggOfKey g.1] := by
  obtain ⟨k, b⟩ := g
  induction qs with
  | nil => simp [addGroupEntry]
  | cons e qs ih =>
    obtain ⟨a0, q⟩ := e
    simp only [addGroupEntry, List.map_cons, List.mem_cons]
    by_cases h0 : a0 = aggOfKey k
    · subst h0
      simp
    · rw [if_neg h0, List.map_cons, ih]
      by_cases hmem : aggOfKey k ∈ qs.map Prod.fst
      · rw [if_pos hmem, if_pos (Or.inr hmem)]
      · rw [if_neg hmem,
          if_neg (by rintro (h | h); exact h0 h.symm; exact hmem h),
          List.cons_append]

/-- The aggregation fold keeps the key list duplicate-free. -/
theorem nodup_keys_statsFoldl (gs : List (GroupKey × List ScoredRow)) :
    ∀ (acc : List (AggKey × QStats)),
      (acc.map Prod.fst).Nodup →
      ((gs.foldl addGroupEntry acc).map Prod.fst).Nodup := by
  induction gs with
  | nil => intro acc h; exact h
  | cons g gs ih =>
    intro acc h
    rw [List.foldl_cons]
    apply ih
    rw [keys_addGroupEntry]
    by_cases hmem : aggOfKey g.1 ∈ acc.map Prod.fst
    · rwa [if_pos hmem]
    · rw [if_neg hmem]
      simp [List.nodup_append, h, hmem]

/-- The key list of the statistics dictionary is duplicate-free. -/
theorem nodup_keys_buildQuestionStats (gs : List (GroupKey × List ScoredRow)) :
    ((buildQuestionStats gs).map Prod.fst).Nodup :=
  nodup_keys_statsFoldl gs [] (by simp)

/-- Statistics lookup of a member entry, given duplicate-free keys. -/
theorem findStats_of_mem :
    ∀ {qs : List (AggKey × QStats)}, (qs.map Prod.fst).Nodup →
      ∀ {e : AggKey × QStats}, e ∈ qs → findStats qs e.1 = some e.2 := by
  intro qs
  induction qs with
  | nil => intro _ e he; cases he
  | cons e0 qs ih =>
    intro hnd e he
    obtain ⟨a0, q0⟩ := e0
    rw [List.map_cons, List.nodup_cons] at hnd
    rcases List.mem_cons.mp he with rfl | he2
    · simp [findStats]
    · have hne : a0 ≠ e.1 := by
        intro hea
        have hmm : e.1 ∈ qs.map Prod.fst := List.mem_map_of_mem Prod.fst he2
        rw [← hea] at hmm
        exact hnd.1 hmm
      simp only [findStats, if_neg hne]
      exact ih hnd.2 he2

/-- A member entry of the statistics dictionary holds exactly the statistics
of the groups carrying its aggregate key. -/
theorem mem_buildQuestionStats_facts {gs : List (GroupKey × List ScoredRow)}
    {a : AggKey} {q : QStats} (h : (a, q) ∈ buildQuestionStats gs) :
    gs.filter (fun g => aggOfKey g.1 = a) ≠ [] ∧
      q = statsOfGroups (gs.filter (fun g => aggOfKey g.1 = a)) := by
  have h1 := findStats_of_mem (nodup_keys_buildQuestionStats gs) h
  dsimp only at h1
  rw [findStats_buildQuestionStats] at h1
  by_cases hf : gs.filter (fun g => aggOfKey g.1 = a) = []
  · rw [if_pos hf] at h1; cases h1
  · rw [if_neg hf] at h1
    exact ⟨hf, (Option.some_inj.mp h1).symm⟩

/-- The aggregate key of a freshly built summary row. -/
theorem summaryKeyOf_mkSummaryRow (a : AggKey) (q : QStats) :
    summaryKeyOf (mkSummaryRow a q) = a := rfl

/-- All fields of a freshly built summary row. -/
theorem mkSummaryRow_fields (a : AggKey) (q : QStats) :
    (mkSummaryRow a q).dataset = a.1 ∧
    (mkSummaryRow a q).model_id = a.2.1 ∧
    (mkSummaryRow a q).condition_id = a.2.2 ∧
    (mkSummaryRow a q).num_questions = q.num_questions ∧
    (mkSummaryRow a q).num_samples = q.num_samples ∧
    (mkSummaryRow a q).mean_accuracy =
      (q.num_correct_answers : ℝ) / (q.num_samples : ℝ) ∧
    (mkSummaryRow a q).accuracy_ci_lower =
      (compute_confidence_interval
        ((q.num_correct_answers : ℝ) / (q.num_samples : ℝ)) q.num_samples 0.95).1 ∧
    (mkSummaryRow a q).accuracy_ci_upper =
      (compute_confidence_interval
        ((q.num_correct_answers : ℝ) / (q.num_samples : ℝ)) q.num_samples 0.95).2 ∧
    (mkSummaryRow a q).mean_refusal_rate =
      (q.num_refusals : ℝ) / (q.num_samples : ℝ) ∧
    (mkSummaryRow a q).mean_reasoning_tokens =
      (q.sum_reasoning_tokens : ℝ) / (q.num_samples : ℝ) ∧
    (mkSummaryRow a q).frac_questions_all_samples_correct =
      (if 0 < q.num_questions then
        (q.num_with_all_correct : ℝ) / (q.num_questions : ℝ) else 0) ∧
    (mkSummaryRow a q).frac_questions_ge_23_correct =
      (if 0 < q.num_questions then
        (q.num_with_ge_23_correct : ℝ) / (q.num_questions : ℝ) else 0) ∧
    (mkSummaryRow a q).frac_questions_ge_13_correct =
      (if 0 < q.num_questions then
        (q.num_with_ge_13_correct : ℝ) / (q.num_questions : ℝ) else 0) ∧
    (mkSummaryRow a q).subject_accuracies = labelAccuracies q.subjects ∧
    (mkSummaryRow a q).difficulty_accuracies = labelAccuracies q.difficulties :=
  ⟨rfl, rfl, rfl, rfl, rfl, rfl, rfl, rfl, rfl, rfl, rfl, rfl, rfl, rfl, rfl⟩

/-- The scalar fields and label dictionaries of the statistics of a group
list. -/
theorem statsOfGroups_fields (gsa : List (GroupKey × List ScoredRow)) :
    (statsOfGroups gsa).num_questions = gsa.length ∧
    (statsOfGroups gsa).num_correct_answers =
      (gsa.map (fun g => bucketCorrect g.2)).sum ∧
    (statsOfGroups gsa).num_samples = (gsa.map (fun g => g.2.length)).sum ∧
    (statsOfGroups gsa).num_refusals =
      (gsa.map (fun g => bucketRefusals g.2)).sum ∧
    (statsOfGroups gsa).sum_reasoning_tokens =
      (gsa.map (fun g => bucketTokens g.2)).sum ∧
    (statsOfGroups gsa).num_with_all_correct =
      gsa.countP (fun g => bucketCorrect g.2 = g.2.length) ∧
    (statsOfGroups gsa).num_with_ge_23_correct =
      gsa.countP (fun g => min 23 g.2.length ≤ bucketCorrect g.2) ∧
    (statsOfGroups gsa).num_with_ge_13_correct =
      gsa.countP (fun g => min 13 g.2.length ≤ bucketCorrect g.2) ∧
    (statsOfGroups gsa).subjects = foldLabel bucketSubject gsa [] ∧
    (statsOfGroups gsa).difficulties = foldLabel bucketDifficulty gsa [] := by
  have h := statsFold_fields gsa QStats.zero
  simpa [statsOfGroups, QStats.zero] using h

/-- `lookupSummary` through the skip-empty `filterMap`, for duplicate-free
statistics keys. -/
theorem lookupSummary_filterMap :
    ∀ (qs : List (AggKey × QStats)), (qs.map Prod.fst).Nodup → ∀ a : AggKey,
      lookupSummary
        (qs.filterMap (fun aq =>
          if aq.2.num_samples = 0 then none
          else some (mkSummaryRow aq.1 aq.2))) a =
        (match findStats qs a with
         | some q => if q.num_samples = 0 then none else some (mkSummaryRow a q)
         | none => none) := by
  intro qs
  induction qs with
  | nil => intro _ a; simp [lookupSummary, findStats]
  | cons e qs ih =>
    intro hnd a
    obtain ⟨a0, q0⟩ := e
    rw [List.map_cons, List.nodup_cons] at hnd
    rw [List.filterMap_cons]
    dsimp only
    by_cases ha : a0 = a
    · subst ha
      have hnone : findStats qs a0 = none := by
        cases hres : findStats qs a0 with
        | none => rfl
        | some v =>
          exact absurd ((findStats_isSome_iff qs a0).mp (by simp [hres])) hnd.1
      have hfs : findStats ((a0, q0) :: qs) a0 = some q0 := by
        simp [findStats]
      rw [hfs]
      by_cases hq : q0.num_samples = 0
      · rw [if_pos hq]
        dsimp only
        rw [ih hnd.2 a0, hnone, if_pos hq]
      · rw [if_neg hq]
        dsimp only
        rw [if_neg hq]
        simp only [lookupSummary, summaryKeyOf_mkSummaryRow, if_pos rfl, if_true]
    · have hfs : findStats ((a0, q0) :: qs) a = findStats qs a := by
        simp [findStats, ha]
      rw [hfs]
      by_cases hq : q0.num_samples = 0
      · rw [if_pos hq]
        dsimp only
        exact ih hnd.2 a
      · rw [if_neg hq]
        dsimp only
        simp only [lookupSummary, summaryKeyOf_mkSummaryRow, if_neg ha]
        exact ih hnd.2 a

/-- `lookupSummary` into the output of `compute_metrics`. -/
theorem lookupSummary_compute_metrics (rows : List ScoredRow) (ns : ℕ)
    (a : AggKey) :
    lookupSummary (compute_metrics rows ns) a =
      (match findStats (buildQuestionStats (buildGroups rows)) a with
       | some q => if q.num_samples = 0 then none else some (mkSummaryRow a q)
       | none => none) :=
  lookupSummary_filterMap (buildQuestionStats (buildGroups rows))
    (nodup_keys_buildQuestionStats _) a

/-- Membership in the metrics output, in canonical form. -/
theorem mem_compute_metrics_facts {rows : List ScoredRow} {ns : ℕ}
    {s : SummaryRow} (hs : s ∈ compute_metrics rows ns) :
    ∃ a : AggKey,
      (buildGroups rows).filter (fun g => aggOfKey g.1 = a) ≠ [] ∧
      ¬((statsOfGroups ((buildGroups rows).filter
          (fun g => aggOfKey g.1 = a))).num_samples = 0) ∧
      s = mkSummaryRow a
        (statsOfGroups ((buildGroups rows).filter (fun g => aggOfKey g.1 = a))) := by
  unfold compute_metrics at hs
  rcases List.mem_filterMap.mp hs with ⟨aq, hmem, hf⟩
  obtain ⟨a, q⟩ := aq
  dsimp only at hf
  by_cases hq : q.num_samples = 0
  · rw [if_pos hq] at hf; cases hf
  · rw [if_neg hq] at hf
    obtain ⟨hne, hqe⟩ := mem_buildQuestionStats_facts hmem
    refine ⟨a, hne, ?_, ?_⟩
    · rw [← hqe]; exact hq
    · rw [← hqe]; exact (Option.some_inj.mp hf).symm

/-- Concrete evaluation: statistics of the 25-sample example. -/
theorem buildQuestionStats_c3Rows :
    buildQuestionStats (buildGroups c3Rows) =
      [(c3Key, ⟨1, 23, 25, 0, 0, 0, 1, 1, [], []⟩)] := by decide

/-- Concrete evaluation: the metrics output of the 25-sample example. -/
theorem compute_metrics_c3Rows :
    compute_metrics c3Rows 25 = [exampleRow25] := by
  unfold compute_metrics
  rw [buildQuestionStats_c3Rows, List.filterMap_cons]
  dsimp only
  rw [if_neg (by decide : ¬((25 : ℕ) = 0))]
  dsimp only
  rw [List.filterMap_nil]
  rfl

/-! ### Metrics bridge: canonical key-level views -/

/-- Key membership in the grouping dictionary. -/
theorem mem_keys_buildGroups_iff (rows : List ScoredRow) (k : GroupKey) :
    k ∈ (buildGroups rows).map Prod.fst ↔ k ∈ rows.map groupKeyOf := by
  rw [← findBucket_isSome_iff, findBucket_buildGroups]
  by_cases hf : rows.filter (fun r => groupKeyOf r = k) = []
  · rw [if_pos hf]
    constructor
    · intro h; cases h
    · intro h
      rcases List.mem_map.mp h with ⟨r, hr, hrk⟩
      have hfr := List.filter_eq_nil_iff.mp hf r hr
      simp only [decide_eq_true_eq] at hfr
      exact absurd hrk hfr
  · rw [if_neg hf]
    constructor
    · intro _
      rcases List.exists_mem_of_ne_nil _ hf with ⟨r, hr⟩
      rcases List.mem_filter.mp hr with ⟨hr1, hr2⟩
      simp only [decide_eq_true_eq] at hr2
      exact List.mem_map.mpr ⟨r, hr1, hr2⟩
    · intro _; rfl

/-- The filtered group keys of one aggregate key are a permutation of the
canonical question-key list. -/
theorem gsa_keys_perm (rows : List ScoredRow) (a : AggKey) :
    (((buildGroups rows).filter (fun g => aggOfKey g.1 = a)).map Prod.fst).Perm
      (questionKeysIn rows a) := by
  have hnd1 :
      (((buildGroups rows).filter (fun g => aggOfKey g.1 = a)).map Prod.fst).Nodup :=
    (nodup_keys_buildGroups rows).sublist ((List.filter_sublist _).map Prod.fst)
  have hnd2 : (questionKeysIn rows a).Nodup :=
    (nodup_dedupFirst _).filter _
  rw [List.perm_ext_iff_of_nodup hnd1 hnd2]
  intro k
  constructor
  · intro h
    rcases List.mem_map.mp h with ⟨g, hg, hgk⟩
    rcases List.mem_filter.mp hg with ⟨hg1, hg2⟩
    simp only [decide_eq_true_eq] at hg2
    have hk1 : k ∈ rows.map groupKeyOf := by
      rw [← mem_keys_buildGroups_iff]
      exact hgk ▸ List.mem_map_of_mem Prod.fst hg1
    rw [questionKeysIn, List.mem_filter]
    refine ⟨mem_dedupFirst.mpr hk1, ?_⟩
    simp only [decide_eq_true_eq]
    rw [← hgk]
    exact hg2
  · intro h
    rw [questionKeysIn, List.mem_filter] at h
    obtain ⟨h1, h2⟩ := h
    simp only [decide_eq_true_eq] at h2
    have hk1 : k ∈ (buildGroups rows).map Prod.fst :=
      (mem_keys_buildGroups_iff rows k).mpr (mem_dedupFirst.mp h1)
    rcases List.mem_map.mp hk1 with ⟨g, hg, hgk⟩
    refine List.mem_map.mpr ⟨g, ?_, hgk⟩
    rw [List.mem_filter]
    refine ⟨hg, ?_⟩
    simp only [decide_eq_true_eq]
    rw [hgk]
    exact h2

/-- A bucket function on groups drawn from the dictionary factors through
their keys. -/
theorem groups_map_bucket {rows : List ScoredRow}
    {gs : List (GroupKey × List ScoredRow)} {β : Type}
    (hsub : ∀ g ∈ gs, g ∈ buildGroups rows) (F : List ScoredRow → β) :
    gs.map (fun g => F g.2) =
      (gs.map Prod.fst).map (fun k => F (bucketIn rows k)) := by
  rw [List.map_map]
  apply List.map_congr_left
  intro g hg
  have hb := bucket_eq_filter (hsub g hg)
  show F g.2 = F (bucketIn rows g.1)
  rw [hb]
  rfl

/-- A bucket predicate on groups drawn from the dictionary factors through
their keys. -/
theorem groups_countP_bucket {rows : List ScoredRow}
    {gs : List (GroupKey × List ScoredRow)}
    (hsub : ∀ g ∈ gs, g ∈ buildGroups rows) (p : List ScoredRow → Bool) :
    gs.countP (fun g => p g.2) =
      (gs.map Prod.fst).countP (fun k => p (bucketIn rows k)) := by
  rw [List.countP_map]
  apply List.countP_congr
  intro g hg
  have hb := bucket_eq_filter (hsub g hg)
  show p g.2 = true ↔ p (bucketIn rows g.1) = true
  rw [hb]
  rfl

/-- Filtering groups by a bucket predicate, seen on their keys. -/
theorem groups_filter_keys {rows : List ScoredRow} :
    ∀ {gs : List (GroupKey × List ScoredRow)},
      (∀ g ∈ gs, g ∈ buildGroups rows) → ∀ (p : List ScoredRow → Bool),
      (gs.filter (fun g => p g.2)).map Prod.fst =
        (gs.map Prod.fst).filter (fun k => p (bucketIn rows k)) := by
  intro gs
  induction gs with
  | nil => intro _ p; simp
  | cons g gs ih =>
    intro hsub p
    have hsub2 : ∀ x ∈ gs, x ∈ buildGroups rows :=
      fun x hx => hsub x (List.mem_cons_of_mem g hx)
    have hb := bucket_eq_filter (hsub g (List.mem_cons_self g gs))
    have hpe : p (bucketIn rows g.1) = p g.2 := by rw [hb]; rfl
    by_cases hp : p g.2 = true
    · have hl : (g :: gs).filter (fun x => p x.2) = g :: gs.filter (fun x => p x.2) := by
        simp [List.filter_cons, hp]
      have hr : (g.1 :: gs.map Prod.fst).filter (fun k => p (bucketIn rows k)) =
          g.1 :: (gs.map Prod.fst).filter (fun k => p (bucketIn rows k)) := by
        simp [List.filter_cons, hpe, hp]
      rw [List.map_cons, hl, hr, List.map_cons, ih hsub2 p]
    · have hl : (g :: gs).filter (fun x => p x.2) = gs.filter (fun x => p x.2) := by
        simp [List.filter_cons, hp]
      have hr : (g.1 :: gs.map Prod.fst).filter (fun k => p (bucketIn rows k)) =
          (gs.map Prod.fst).filter (fun k => p (bucketIn rows k)) := by
        simp [List.filter_cons, hpe, hp]
      rw [List.map_cons, hl, hr, ih hsub2 p]

/-- Sums of bucket statistics of one aggregate key, in canonical form. -/
theorem gsa_sum_eq (rows : List ScoredRow) (a : AggKey) (F : List ScoredRow → ℕ) :
    ((((buildGroups rows).filter (fun g => aggOfKey g.1 = a)).map
        (fun g => F g.2))).sum =
      ((questionKeysIn rows a).map (fun k => F (bucketIn rows k))).sum := by
  rw [groups_map_bucket (fun g hg => List.mem_of_mem_filter hg) F]
  exact ((gsa_keys_perm rows a).map _).sum_eq

/-- Counts of bucket conditions of one aggregate key, in canonical form. -/
theorem gsa_countP_eq (rows : List ScoredRow) (a : AggKey)
    (p : List ScoredRow → Bool) :
    (((buildGroups rows).filter (fun g => aggOfKey g.1 = a)).countP
        (fun g => p g.2)) =
      (questionKeysIn rows a).countP (fun k => p (bucketIn rows k)) := by
  rw [groups_countP_bucket (fun g hg => List.mem_of_mem_filter hg) p]
  exact (gsa_keys_perm rows a).countP_eq _

/-- The number of groups of one aggregate key, in canonical form. -/
theorem gsa_length_eq (rows : List ScoredRow) (a : AggKey) :
    ((buildGroups rows).filter (fun g => aggOfKey g.1 = a)).length =
      (questionKeysIn rows a).length := by
  rw [← List.length_map
    (((buildGroups rows).filter (fun g => aggOfKey g.1 = a))) Prod.fst]
  exact (gsa_keys_perm rows a).length_eq

/-- A bucket has all samples correct exactly when its correct count equals
its size. -/
theorem bucketAll_iff (b : List ScoredRow) :
    bucketCorrect b = b.length ↔ b.all (fun r => r.is_correct) = true := by
  simp only [bucketCorrect]
  rw [List.countP_eq_length, List.all_eq_true]

/-- The ≥23 counter of one aggregate key, in canonical form. -/
theorem gsa_count23_eq (rows : List ScoredRow) (a : AggKey) :
    ((buildGroups rows).filter (fun g => aggOfKey g.1 = a)).countP
        (fun g => min 23 g.2.length ≤ bucketCorrect g.2) =
      (questionKeysIn rows a).countP
        (fun k => min 23 (totalOfKey rows k) ≤ correctOfKey rows k) :=
  gsa_countP_eq rows a (fun b => min 23 b.length ≤ bucketCorrect b)

/-- The ≥13 counter of one aggregate key, in canonical form. -/
theorem gsa_count13_eq (rows : List ScoredRow) (a : AggKey) :
    ((buildGroups rows).filter (fun g => aggOfKey g.1 = a)).countP
        (fun g => min 13 g.2.length ≤ bucketCorrect g.2) =
      (questionKeysIn rows a).countP
        (fun k => min 13 (totalOfKey rows k) ≤ correctOfKey rows k) :=
  gsa_countP_eq rows a (fun b => min 13 b.length ≤ bucketCorrect b)

/-- The all-correct counter of one aggregate key, in canonical form. -/
theorem gsa_countAll_eq (rows : List ScoredRow) (a : AggKey) :
    ((buildGroups rows).filter (fun g => aggOfKey g.1 = a)).countP
        (fun g => bucketCorrect g.2 = g.2.length) =
      (questionKeysIn rows a).countP
        (fun k => (bucketIn rows k).all (fun r => r.is_correct)) := by
  rw [gsa_countP_eq rows a (fun b => bucketCorrect b = b.length)]
  apply List.countP_congr
  intro k _
  simp only [decide_eq_true_eq]
  exact bucketAll_iff _

/-- C10: in every summary row produced by `compute_metrics`, the three
robustness fractions satisfy `frac_all ≤ frac_ge_23 ≤ frac_ge_13`, and each
of the three lies in `[0, 1]`. -/
theorem C10_robust_fraction_bounds (rows : List ScoredRow) (ns : ℕ)
    (s : SummaryRow) (hs : s ∈ compute_metrics rows ns) :
    (0 ≤ s.frac_questions_all_samples_correct ∧
      s.frac_questions_all_samples_correct ≤ 1) ∧
    (0 ≤ s.frac_questions_ge_23_correct ∧
      s.frac_questions_ge_23_correct ≤ 1) ∧
    (0 ≤ s.frac_questions_ge_13_correct ∧
      s.frac_questions_ge_13_correct ≤ 1) ∧
    s.frac_questions_all_samples_correct ≤ s.frac_questions_ge_23_correct ∧
    s.frac_questions_ge_23_correct ≤ s.frac_questions_ge_13_correct := by
  rcases mem_compute_metrics_facts hs with ⟨a, hne, hq0, rfl⟩
  obtain ⟨q1, q2, q3, q4, q5, q6, q7, q8, q9, q10⟩ := statsOfGroups_fields
    ((buildGroups rows).filter (fun g => aggOfKey g.1 = a))
  obtain ⟨f1, f2, f3, f4, f5, f6, f7, f8, f9, f10, f11, f12, f13, f14, f15⟩ :=
    mkSummaryRow_fields a
      (statsOfGroups ((buildGroups rows).filter (fun g => aggOfKey g.1 = a)))
  have hpos : 0 < (statsOfGroups ((buildGroups rows).filter
      (fun g => aggOfKey g.1 = a))).num_questions := by
    rw [q1]
    exact List.length_pos.mpr hne
  have hmono1 : (statsOfGroups ((buildGroups rows).filter
        (fun g => aggOfKey g.1 = a))).num_with_all_correct ≤
      (statsOfGroups ((buildGroups rows).filter
        (fun g => aggOfKey g.1 = a))).num_with_ge_23_correct := by
    rw [q6, q7]
    apply List.countP_mono_left
    intro g _ hg
    simp only [decide_eq_true_eq] at hg ⊢
    omega
  have hmono2 : (statsOfGroups ((buildGroups rows).filter
        (fun g => aggOfKey g.1 = a))).num_with_ge_23_correct ≤
      (statsOfGroups ((buildGroups rows).filter
        (fun g => aggOfKey g.1 = a))).num_with_ge_13_correct := by
    rw [q7, q8]
    apply List.countP_mono_left
    intro g _ hg
    simp only [decide_eq_true_eq] at hg ⊢
    omega
  have hbound : (statsOfGroups ((buildGroups rows).filter
        (fun g => aggOfKey g.1 = a))).num_with_ge_13_correct ≤
      (statsOfGroups ((buildGroups rows).filter
        (fun g => aggOfKey g.1 = a))).num_questions := by
    rw [q8, q1]
    exact List.countP_le_length _
  have hnq : (0 : ℝ) < ((statsOfGroups ((buildGroups rows).filter
      (fun g => aggOfKey g.1 = a))).num_questions : ℝ) := by
    exact_mod_cast hpos
  rw [f11, f12, f13, if_pos hpos, if_pos hpos, if_pos hpos]
  refine ⟨⟨?_, ?_⟩, ⟨?_, ?_⟩, ⟨?_, ?_⟩, ?_, ?_⟩
  · positivity
  · rw [div_le_one hnq]
    exact_mod_cast le_trans hmono1 (le_trans hmono2 hbound)
  · positivity
  · rw [div_le_one hnq]
    exact_mod_cast le_trans hmono2 hbound
  · positivity
  · rw [div_le_one hnq]
    exact_mod_cast hbound
  · rw [div_le_div_right hnq]
    exact_mod_cast hmono1
  · rw [div_le_div_right hnq]
    exact_mod_cast hmono2

/-- Witness for C10 at the 25-sample example. -/
theorem C10_robust_fraction_bounds_witness :
    exampleRow25 ∈ compute_metrics c3Rows 25 ∧
    ((0 ≤ exampleRow25.frac_questions_all_samples_correct ∧
        exampleRow25.frac_questions_all_samples_correct ≤ 1) ∧
      (0 ≤ exampleRow25.frac_questions_ge_23_correct ∧
        exampleRow25.frac_questions_ge_23_correct ≤ 1) ∧
      (0 ≤ exampleRow25.frac_questions_ge_13_correct ∧
        exampleRow25.frac_questions_ge_13_correct ≤ 1) ∧
      exampleRow25.frac_questions_all_samples_correct ≤
        exampleRow25.frac_questions_ge_23_correct ∧
      exampleRow25.frac_questions_ge_23_correct ≤
        exampleRow25.frac_questions_ge_13_correct) := by
  have hmem : exampleRow25 ∈ compute_metrics c3Rows 25 := by
    rw [compute_metrics_c3Rows]
    exact List.mem_singleton.mpr rfl
  exact ⟨hmem, C10_robust_fraction_bounds c3Rows 25 exampleRow25 hmem⟩

/-- C3: in every summary row the three robustness fractions count exactly
the questions whose correct-sample count meets the corresponding threshold
(`min(23, total)`, `min(13, total)`, all samples correct), and in the
25-sample example with exactly 23 correct samples the question counts toward
the ≥23 and ≥13 fractions but not the all-correct fraction. -/
theorem C3_threshold_fractions :
    (∀ (rows : List ScoredRow) (ns : ℕ) (s : SummaryRow),
      s ∈ compute_metrics rows ns →
      0 < s.num_questions ∧
      s.num_questions = (questionKeysIn rows (summaryKeyOf s)).length ∧
      s.frac_questions_ge_23_correct =
        (((questionKeysIn rows (summaryKeyOf s)).countP
            (fun k => min 23 (totalOfKey rows k) ≤ correctOfKey rows k) : ℕ) : ℝ) /
          (s.num_questions : ℝ) ∧
      s.frac_questions_ge_13_correct =
        (((questionKeysIn rows (summaryKeyOf s)).countP
            (fun k => min 13 (totalOfKey rows k) ≤ correctOfKey rows k) : ℕ) : ℝ) /
          (s.num_questions : ℝ) ∧
      s.frac_questions_all_samples_correct =
        (((questionKeysIn rows (summaryKeyOf s)).countP
            (fun k => (bucketIn rows k).all (fun r => r.is_correct)) : ℕ) : ℝ) /
          (s.num_questions : ℝ)) ∧
    (∀ s : SummaryRow, s ∈ compute_metrics c3Rows 25 →
      s.frac_questions_ge_23_correct = 1 ∧
      s.frac_questions_ge_13_correct = 1 ∧
      s.frac_questions_all_samples_correct = 0) := by
  constructor
  · intro rows ns s hs
    rcases mem_compute_metrics_facts hs with ⟨a, hne, hq0, rfl⟩
    obtain ⟨q1, q2, q3, q4, q5, q6, q7, q8, q9, q10⟩ := statsOfGroups_fields
      ((buildGroups rows).filter (fun g => aggOfKey g.1 = a))
    obtain ⟨f1, f2, f3, f4, f5, f6, f7, f8, f9, f10, f11, f12, f13, f14, f15⟩ :=
      mkSummaryRow_fields a
        (statsOfGroups ((buildGroups rows).filter (fun g => aggOfKey g.1 = a)))
    have hpos : 0 < (statsOfGroups ((buildGroups rows).filter
        (fun g => aggOfKey g.1 = a))).num_questions := by
      rw [q1]
      exact List.length_pos.mpr hne
    rw [summaryKeyOf_mkSummaryRow]
    refine ⟨?_, ?_, ?_, ?_, ?_⟩
    · rw [f4]; exact hpos
    · rw [f4, q1]; exact gsa_length_eq rows a
    · rw [f12, if_pos hpos, f4, q7, gsa_count23_eq rows a, q1,
        gsa_length_eq rows a]
    · rw [f13, if_pos hpos, f4, q8, gsa_count13_eq rows a, q1,
        gsa_length_eq rows a]
    · rw [f11, if_pos hpos, f4, q6, gsa_countAll_eq rows a, q1,
        gsa_length_eq rows a]
  · intro s hs
    rw [compute_metrics_c3Rows] at hs
    rcases List.mem_singleton.mp hs with rfl
    obtain ⟨f1, f2, f3, f4, f5, f6, f7, f8, f9, f10, f11, f12, f13, f14, f15⟩ :=
      mkSummaryRow_fields c3Key ⟨1, 23, 25, 0, 0, 0, 1, 1, [], []⟩
    refine ⟨?_, ?_, ?_⟩
    · rw [show exampleRow25.frac_questions_ge_23_correct =
          _ from f12]
      norm_num
    · rw [show exampleRow25.frac_questions_ge_13_correct =
          _ from f13]
      norm_num
    · rw [show exampleRow25.frac_questions_all_samples_correct =
          _ from f11]
      norm_num

/-- Witness for C3 at the 25-sample example. -/
theorem C3_threshold_fractions_witness :
    exampleRow25 ∈ compute_metrics c3Rows 25 ∧
    (exampleRow25.frac_questions_ge_23_correct = 1 ∧
      exampleRow25.frac_questions_ge_13_correct = 1 ∧
      exampleRow25.frac_questions_all_samples_correct = 0) := by
  have hmem : exampleRow25 ∈ compute_metrics c3Rows 25 := by
    rw [compute_metrics_c3Rows]
    exact List.mem_singleton.mpr rfl
  exact ⟨hmem, C3_threshold_fractions.2 exampleRow25 hmem⟩

/-! ### Metrics bridge: permutation invariance -/

/-- An aggregate key has groups exactly when some record carries it. -/
theorem gsa_ne_nil_iff (rows : List ScoredRow) (a : AggKey) :
    (buildGroups rows).filter (fun g => aggOfKey g.1 = a) ≠ [] ↔
      a ∈ rows.map aggKeyOf := by
  constructor
  · intro h
    rcases List.exists_mem_of_ne_nil _ h with ⟨g, hg⟩
    rcases List.mem_filter.mp hg with ⟨hg1, hg2⟩
    simp only [decide_eq_true_eq] at hg2
    have hk : g.1 ∈ rows.map groupKeyOf :=
      (mem_keys_buildGroups_iff rows g.1).mp (List.mem_map_of_mem Prod.fst hg1)
    rcases List.mem_map.mp hk with ⟨r, hr, hrk⟩
    refine List.mem_map.mpr ⟨r, hr, ?_⟩
    rw [← hg2, ← hrk]
    rfl
  · intro h
    rcases List.mem_map.mp h with ⟨r, hr, hra⟩
    intro hnil
    have hk : groupKeyOf r ∈ rows.map groupKeyOf :=
      List.mem_map_of_mem groupKeyOf hr
    have hg := (mem_keys_buildGroups_iff rows (groupKeyOf r)).mpr hk
    rcases List.mem_map.mp hg with ⟨g, hgmem, hgk⟩
    have hmem : g ∈ (buildGroups rows).filter (fun g => aggOfKey g.1 = a) := by
      rw [List.mem_filter]
      refine ⟨hgmem, ?_⟩
      simp only [decide_eq_true_eq]
      rw [hgk, ← hra]
      rfl
    rw [hnil] at hmem
    cases hmem

/-- The canonical question-key lists agree across a permutation of the
records. -/
theorem questionKeysIn_perm {rows1 rows2 : List ScoredRow}
    (hperm : rows2.Perm rows1) (a : AggKey) :
    (questionKeysIn rows2 a).Perm (questionKeysIn rows1 a) := by
  have hnd2 : (questionKeysIn rows2 a).Nodup := (nodup_dedupFirst _).filter _
  have hnd1 : (questionKeysIn rows1 a).Nodup := (nodup_dedupFirst _).filter _
  rw [List.perm_ext_iff_of_nodup hnd2 hnd1]
  intro k
  simp only [questionKeysIn, List.mem_filter, mem_dedupFirst]
  constructor
  · rintro ⟨h1, h2⟩
    exact ⟨(hperm.map groupKeyOf).mem_iff.mp h1, h2⟩
  · rintro ⟨h1, h2⟩
    exact ⟨(hperm.map groupKeyOf).mem_iff.mpr h1, h2⟩

/-- Key-level sums agree across a permutation of the records, given a
permutation-invariant bucket function. -/
theorem keySum_perm {rows1 rows2 : List ScoredRow} (hperm : rows2.Perm rows1)
    (a : AggKey) (F : List ScoredRow → ℕ)
    (hF : ∀ k : GroupKey, F (bucketIn rows2 k) = F (bucketIn rows1 k)) :
    ((questionKeysIn rows2 a).map (fun k => F (bucketIn rows2 k))).sum =
      ((questionKeysIn rows1 a).map (fun k => F (bucketIn rows1 k))).sum := by
  rw [List.map_congr_left (fun k _ => hF k)]
  exact ((questionKeysIn_perm hperm a).map _).sum_eq

/-- Key-level counts agree across a permutation of the records, given a
permutation-invariant bucket predicate. -/
theorem keyCount_perm {rows1 rows2 : List ScoredRow} (hperm : rows2.Perm rows1)
    (a : AggKey) (p : List ScoredRow → Bool)
    (hp : ∀ k : GroupKey, p (bucketIn rows2 k) = p (bucketIn rows1 k)) :
    (questionKeysIn rows2 a).countP (fun k => p (bucketIn rows2 k)) =
      (questionKeysIn rows1 a).countP (fun k => p (bucketIn rows1 k)) := by
  have h1 : (questionKeysIn rows2 a).countP (fun k => p (bucketIn rows2 k)) =
      (questionKeysIn rows2 a).countP (fun k => p (bucketIn rows1 k)) :=
    List.countP_congr (fun k _ => by rw [hp k])
  rw [h1]
  exact (questionKeysIn_perm hperm a).countP_eq _

/-- All scalar statistics of one aggregate key agree across a permutation of
the input records. -/
theorem statsOfGroups_perm (rows1 rows2 : List ScoredRow)
    (hperm : rows2.Perm rows1) (a : AggKey) :
    (statsOfGroups ((buildGroups rows2).filter
        (fun g => aggOfKey g.1 = a))).num_questions =
      (statsOfGroups ((buildGroups rows1).filter
        (fun g => aggOfKey g.1 = a))).num_questions ∧
    (statsOfGroups ((buildGroups rows2).filter
        (fun g => aggOfKey g.1 = a))).num_correct_answers =
      (statsOfGroups ((buildGroups rows1).filter
        (fun g => aggOfKey g.1 = a))).num_correct_answers ∧
    (statsOfGroups ((buildGroups rows2).filter
        (fun g => aggOfKey g.1 = a))).num_samples =
      (statsOfGroups ((buildGroups rows1).filter
        (fun g => aggOfKey g.1 = a))).num_samples ∧
    (statsOfGroups ((buildGroups rows2).filter
        (fun g => aggOfKey g.1 = a))).num_refusals =
      (statsOfGroups ((buildGroups rows1).filter
        (fun g => aggOfKey g.1 = a))).num_refusals ∧
    (statsOfGroups ((buildGroups rows2).filter
        (fun g => aggOfKey g.1 = a))).sum_reasoning_tokens =
      (statsOfGroups ((buildGroups rows1).filter
        (fun g => aggOfKey g.1 = a))).sum_reasoning_tokens ∧
    (statsOfGroups ((buildGroups rows2).filter
        (fun g => aggOfKey g.1 = a))).num_with_all_correct =
      (statsOfGroups ((buildGroups rows1).filter
        (fun g => aggOfKey g.1 = a))).num_with_all_correct ∧
    (statsOfGroups ((buildGroups rows2).filter
        (fun g => aggOfKey g.1 = a))).num_with_ge_23_correct =
      (statsOfGroups ((buildGroups rows1).filter
        (fun g => aggOfKey g.1 = a))).num_with_ge_23_correct ∧
    (statsOfGroups ((buildGroups rows2).filter
        (fun g => aggOfKey g.1 = a))).num_with_ge_13_correct =
      (statsOfGroups ((buildGroups rows1).filter
        (fun g => aggOfKey g.1 = a))).num_with_ge_13_correct := by
  obtain ⟨a1, a2, a3, a4, a5, a6, a7, a8, _, _⟩ := statsOfGroups_fields
    ((buildGroups rows2).filter (fun g => aggOfKey g.1 = a))
  obtain ⟨b1, b2, b3, b4, b5, b6, b7, b8, _, _⟩ := statsOfGroups_fields
    ((buildGroups rows1).filter (fun g => aggOfKey g.1 = a))
  refine ⟨?_, ?_, ?_, ?_, ?_, ?_, ?_, ?_⟩
  · rw [a1, b1, gsa_length_eq rows2 a, gsa_length_eq rows1 a,
      (questionKeysIn_perm hperm a).length_eq]
  · rw [a2, b2, gsa_sum_eq rows2 a bucketCorrect, gsa_sum_eq rows1 a bucketCorrect]
    exact keySum_perm hperm a bucketCorrect
      (fun k => (hperm.filter _).countP_eq _)
  · rw [a3, b3, gsa_sum_eq rows2 a (fun b => b.length),
      gsa_sum_eq rows1 a (fun b => b.length)]
    exact keySum_perm hperm a (fun b => b.length)
      (fun k => (hperm.filter _).length_eq)
  · rw [a4, b4, gsa_sum_eq rows2 a bucketRefusals, gsa_sum_eq rows1 a bucketRefusals]
    exact keySum_perm hperm a bucketRefusals
      (fun k => (hperm.filter _).countP_eq _)
  · rw [a5, b5, gsa_sum_eq rows2 a bucketTokens, gsa_sum_eq rows1 a bucketTokens]
    exact keySum_perm hperm a bucketTokens
      (fun k => ((hperm.filter _).map _).sum_eq)
  · rw [a6, b6, gsa_countP_eq rows2 a (fun b => bucketCorrect b = b.length),
      gsa_countP_eq rows1 a (fun b => bucketCorrect b = b.length)]
    refine keyCount_perm hperm a (fun b => bucketCorrect b = b.length) ?_
    intro k
    have hc : bucketCorrect (bucketIn rows2 k) = bucketCorrect (bucketIn rows1 k) :=
      (hperm.filter _).countP_eq _
    have hl : (bucketIn rows2 k).length = (bucketIn rows1 k).length :=
      (hperm.filter _).length_eq
    simp only [hc, hl]
  · rw [a7, b7, gsa_countP_eq rows2 a (fun b => min 23 b.length ≤ bucketCorrect b),
      gsa_countP_eq rows1 a (fun b => min 23 b.length ≤ bucketCorrect b)]
    refine keyCount_perm hperm a (fun b => min 23 b.length ≤ bucketCorrect b) ?_
    intro k
    have hc : bucketCorrect (bucketIn rows2 k) = bucketCorrect (bucketIn rows1 k) :=
      (hperm.filter _).countP_eq _
    have hl : (bucketIn rows2 k).length = (bucketIn rows1 k).length :=
      (hperm.filter _).length_eq
    simp only [hc, hl]
  · rw [a8, b8, gsa_countP_eq rows2 a (fun b => min 13 b.length ≤ bucketCorrect b),
      gsa_countP_eq rows1 a (fun b => min 13 b.length ≤ bucketCorrect b)]
    refine keyCount_perm hperm a (fun b => min 13 b.length ≤ bucketCorrect b) ?_
    intro k
    have hc : bucketCorrect (bucketIn rows2 k) = bucketCorrect (bucketIn rows1 k) :=
      (hperm.filter _).countP_eq _
    have hl : (bucketIn rows2 k).length = (bucketIn rows1 k).length :=
      (hperm.filter _).length_eq
    simp only [hc, hl]

/-- Under consistent labels, the subject and difficulty read off a bucket's
first record agree across a permutation of the records. -/
theorem bucketLabel_agree {rows1 rows2 : List ScoredRow}
    (hperm : rows2.Perm rows1) (hagree : labelsAgree rows1) (k : GroupKey) :
    bucketSubject (bucketIn rows2 k) = bucketSubject (bucketIn rows1 k) ∧
    bucketDifficulty (bucketIn rows2 k) = bucketDifficulty (bucketIn rows1 k) := by
  have hp : (bucketIn rows2 k).Perm (bucketIn rows1 k) := hperm.filter _
  cases h1 : bucketIn rows1 k with
  | nil =>
    have h2 : bucketIn rows2 k = [] := by
      rw [h1] at hp
      exact hp.eq_nil
    rw [h2]
    exact ⟨rfl, rfl⟩
  | cons r1 t1 =>
    cases h2 : bucketIn rows2 k with
    | nil =>
      rw [h2] at hp
      have hx := hp.symm.eq_nil
      rw [h1] at hx
      cases hx
    | cons r2 t2 =>
      have hr2 : r2 ∈ bucketIn rows2 k := by
        rw [h2]
        exact List.mem_cons_self r2 t2
      have hr2m : r2 ∈ bucketIn rows1 k := hp.mem_iff.mp hr2
      have hr1m : r1 ∈ bucketIn rows1 k := by
        rw [h1]
        exact List.mem_cons_self r1 t1
      rcases List.mem_filter.mp hr2m with ⟨hr2r, hr2k⟩
      rcases List.mem_filter.mp hr1m with ⟨hr1r, hr1k⟩
      simp only [decide_eq_true_eq] at hr2k hr1k
      have hag := hagree r1 hr1r r2 hr2r (by rw [hr1k, hr2k])
      simp only [bucketSubject, bucketDifficulty]
      exact ⟨hag.1.symm, hag.2.symm⟩

/-- The label fold never creates an empty-string key. -/
theorem alistLookup_foldLabel_nil_empty (labOf : List ScoredRow → Option String)
    (gsa : List (GroupKey × List ScoredRow)) :
    ∀ d0 : List (String × (ℕ × ℕ)), alistLookup d0 "" = none →
      alistLookup (foldLabel labOf gsa d0) "" = none := by
  induction gsa with
  | nil => intro d0 h; simpa [foldLabel] using h
  | cons g gs ih =>
    intro d0 h
    have hfold : foldLabel labOf (g :: gs) d0 =
        foldLabel labOf gs
          (maybeBumpLabel d0 (labOf g.2) (bucketCorrect g.2) g.2.length) := by
      simp [foldLabel, List.foldl_cons]
    rw [hfold]
    apply ih
    cases hlab : labOf g.2 with
    | none => simpa [maybeBumpLabel] using h
    | some s0 =>
      simp only [maybeBumpLabel]
      by_cases hs0 : s0 = ""
      · rw [if_pos hs0]; exact h
      · rw [if_neg hs0, alistLookup_bumpLabel, if_neg hs0]
        exact h

/-- Label-dictionary lookups of one aggregate key agree across a permutation
of the records, for any permutation-invariant label selector. -/
theorem foldLabel_lookup_perm {rows1 rows2 : List ScoredRow}
    (hperm : rows2.Perm rows1) (a : AggKey)
    (labOf : List ScoredRow → Option String)
    (hlab : ∀ k : GroupKey, labOf (bucketIn rows2 k) = labOf (bucketIn rows1 k))
    (lab : String) :
    alistLookup (foldLabel labOf
        ((buildGroups rows2).filter (fun g => aggOfKey g.1 = a)) []) lab =
      alistLookup (foldLabel labOf
        ((buildGroups rows1).filter (fun g => aggOfKey g.1 = a)) []) lab := by
  by_cases hl : lab = ""
  · subst hl
    rw [alistLookup_foldLabel_nil_empty labOf
        ((buildGroups rows2).filter (fun g => aggOfKey g.1 = a)) [] rfl,
      alistLookup_foldLabel_nil_empty labOf
        ((buildGroups rows1).filter (fun g => aggOfKey g.1 = a)) [] rfl]
  · have hsub2 : ∀ g ∈ ((buildGroups rows2).filter
        (fun g => aggOfKey g.1 = a)).filter (fun g => labOf g.2 = some lab),
        g ∈ buildGroups rows2 :=
      fun g hg => List.mem_of_mem_filter (List.mem_of_mem_filter hg)
    have hsub1 : ∀ g ∈ ((buildGroups rows1).filter
        (fun g => aggOfKey g.1 = a)).filter (fun g => labOf g.2 = some lab),
        g ∈ buildGroups rows1 :=
      fun g hg => List.mem_of_mem_filter (List.mem_of_mem_filter hg)
    have hkp2 : ((((buildGroups rows2).filter (fun g => aggOfKey g.1 = a)).filter
          (fun g => labOf g.2 = some lab)).map Prod.fst).Perm
        ((questionKeysIn rows2 a).filter
          (fun k => labOf (bucketIn rows2 k) = some lab)) := by
      rw [groups_filter_keys (fun g hg => List.mem_of_mem_filter hg)
        (fun b => labOf b = some lab)]
      exact (gsa_keys_perm rows2 a).filter _
    have hkp1 : ((((buildGroups rows1).filter (fun g => aggOfKey g.1 = a)).filter
          (fun g => labOf g.2 = some lab)).map Prod.fst).Perm
        ((questionKeysIn rows1 a).filter
          (fun k => labOf (bucketIn rows1 k) = some lab)) := by
      rw [groups_filter_keys (fun g hg => List.mem_of_mem_filter hg)
        (fun b => labOf b = some lab)]
      exact (gsa_keys_perm rows1 a).filter _
    have hpt : ∀ k ∈ questionKeysIn rows2 a,
        (decide (labOf (bucketIn rows2 k) = some lab)) =
          (decide (labOf (bucketIn rows1 k) = some lab)) := by
      intro k _
      rw [hlab k]
    have hksp : ((questionKeysIn rows2 a).filter
          (fun k => labOf (bucketIn rows2 k) = some lab)).Perm
        ((questionKeysIn rows1 a).filter
          (fun k => labOf (bucketIn rows1 k) = some lab)) := by
      rw [List.filter_congr hpt]
      exact (questionKeysIn_perm hperm a).filter _
    have hlen : (((buildGroups rows2).filter (fun g => aggOfKey g.1 = a)).filter
          (fun g => labOf g.2 = some lab)).length =
        (((buildGroups rows1).filter (fun g => aggOfKey g.1 = a)).filter
          (fun g => labOf g.2 = some lab)).length := by
      rw [← List.length_map
          (((buildGroups rows2).filter (fun g => aggOfKey g.1 = a)).filter
            (fun g => labOf g.2 = some lab)) Prod.fst,
        ← List.length_map
          (((buildGroups rows1).filter (fun g => aggOfKey g.1 = a)).filter
            (fun g => labOf g.2 = some lab)) Prod.fst,
        hkp2.length_eq, hkp1.length_eq, hksp.length_eq]
    have hemp : ((((buildGroups rows2).filter (fun g => aggOfKey g.1 = a)).filter
          (fun g => labOf g.2 = some lab)) = []) ↔
        ((((buildGroups rows1).filter (fun g => aggOfKey g.1 = a)).filter
          (fun g => labOf g.2 = some lab)) = []) := by
      rw [← List.length_eq_zero, ← List.length_eq_zero, hlen]
    have hsumc : ((((buildGroups rows2).filter (fun g => aggOfKey g.1 = a)).filter
            (fun g => labOf g.2 = some lab)).map (fun g => bucketCorrect g.2)).sum =
        ((((buildGroups rows1).filter (fun g => aggOfKey g.1 = a)).filter
            (fun g => labOf g.2 = some lab)).map (fun g => bucketCorrect g.2)).sum := by
      have hcc : ∀ k : GroupKey,
          bucketCorrect (bucketIn rows2 k) = bucketCorrect (bucketIn rows1 k) :=
        fun k => (hperm.filter _).countP_eq _
      rw [groups_map_bucket hsub2 bucketCorrect,
        groups_map_bucket hsub1 bucketCorrect,
        (hkp2.map _).sum_eq, (hkp1.map _).sum_eq,
        List.map_congr_left (fun k _ => hcc k)]
      exact (hksp.map _).sum_eq
    have hsumt : ((((buildGroups rows2).filter (fun g => aggOfKey g.1 = a)).filter
            (fun g => labOf g.2 = some lab)).map (fun g => g.2.length)).sum =
        ((((buildGroups rows1).filter (fun g => aggOfKey g.1 = a)).filter
            (fun g => labOf g.2 = some lab)).map (fun g => g.2.length)).sum := by
      have hll : ∀ k : GroupKey,
          (bucketIn rows2 k).length = (bucketIn rows1 k).length :=
        fun k => (hperm.filter _).length_eq
      rw [groups_map_bucket hsub2 (fun b => b.length),
        groups_map_bucket hsub1 (fun b => b.length),
        (hkp2.map _).sum_eq, (hkp1.map _).sum_eq,
        List.map_congr_left (fun k _ => hll k)]
      exact (hksp.map _).sum_eq
    rw [alistLookup_foldLabel labOf lab hl
        ((buildGroups rows2).filter (fun g => aggOfKey g.1 = a)) [],
      alistLookup_foldLabel labOf lab hl
        ((buildGroups rows1).filter (fun g => aggOfKey g.1 = a)) []]
    by_cases he : (((buildGroups rows2).filter (fun g => aggOfKey g.1 = a)).filter
        (fun g => labOf g.2 = some lab)) = []
    · rw [if_pos he, if_pos (hemp.mp he)]
    · rw [if_neg he, if_neg (fun h => he (hemp.mpr h)), hsumc, hsumt]

/-- Two summary rows of the same aggregate key with equal scalar statistics
and pointwise-equal label dictionaries are equivalent. -/
theorem summaryRowEquiv_mk {a : AggKey} {q1 q2 : QStats}
    (h1 : q2.num_questions = q1.num_questions)
    (h2 : q2.num_correct_answers = q1.num_correct_answers)
    (h3 : q2.num_samples = q1.num_samples)
    (h4 : q2.num_refusals = q1.num_refusals)
    (h5 : q2.sum_reasoning_tokens = q1.sum_reasoning_tokens)
    (h6 : q2.num_with_all_correct = q1.num_with_all_correct)
    (h7 : q2.num_with_ge_23_correct = q1.num_with_ge_23_correct)
    (h8 : q2.num_with_ge_13_correct = q1.num_with_ge_13_correct)
    (hsub : ∀ lab, alistLookup (labelAccuracies q2.subjects) lab =
      alistLookup (labelAccuracies q1.subjects) lab)
    (hdiff : ∀ lab, alistLookup (labelAccuracies q2.difficulties) lab =
      alistLookup (labelAccuracies q1.difficulties) lab) :
    SummaryRowEquiv (mkSummaryRow a q2) (mkSummaryRow a q1) := by
  obtain ⟨f1, f2, f3, f4, f5, f6, f7, f8, f9, f10, f11, f12, f13, f14, f15⟩ :=
    mkSummaryRow_fields a q2
  obtain ⟨g1, g2, g3, g4, g5, g6, g7, g8, g9, g10, g11, g12, g13, g14, g15⟩ :=
    mkSummaryRow_fields a q1
  unfold SummaryRowEquiv
  refine ⟨?_, ?_, ?_, ?_, ?_, ?_, ?_, ?_, ?_, ?_, ?_, ?_, ?_, ?_, ?_⟩
  · rw [f1, g1]
  · rw [f2, g2]
  · rw [f3, g3]
  · rw [f4, g4, h1]
  · rw [f5, g5, h3]
  · rw [f6, g6, h2, h3]
  · rw [f7, g7, h2, h3]
  · rw [f8, g8, h2, h3]
  · rw [f9, g9, h4, h3]
  · rw [f10, g10, h5, h3]
  · rw [f11, g11, h6, h1]
  · rw [f12, g12, h7, h1]
  · rw [f13, g13, h8, h1]
  · intro lab
    rw [f14, g14]
    exact hsub lab
  · intro lab
    rw [f15, g15]
    exact hdiff lab

/-- The aggregate keys of the metrics output are the keys of the statistics
dictionary with a nonzero sample count. -/
theorem outKeys_eq (qs : List (AggKey × QStats)) :
    (qs.filterMap (fun aq =>
        if aq.2.num_samples = 0 then none
        else some (mkSummaryRow aq.1 aq.2))).map summaryKeyOf =
      (qs.filter (fun aq => ¬(aq.2.num_samples = 0))).map Prod.fst := by
  induction qs with
  | nil => simp
  | cons e qs ih =>
    obtain ⟨a0, q0⟩ := e
    rw [List.filterMap_cons, List.filter_cons]
    dsimp only
    by_cases hq : q0.num_samples = 0
    · rw [if_pos hq, if_neg (by simp [hq])]
      exact ih
    · rw [if_neg hq, if_pos (by simpa using hq), List.map_cons, List.map_cons,
        ih, summaryKeyOf_mkSummaryRow]

/-- The aggregate keys of the metrics output are duplicate-free. -/
theorem nodup_outKeys (rows : List ScoredRow) (ns : ℕ) :
    ((compute_metrics rows ns).map summaryKeyOf).Nodup := by
  have h : (compute_metrics rows ns).map summaryKeyOf =
      ((buildQuestionStats (buildGroups rows)).filter
        (fun aq => ¬(aq.2.num_samples = 0))).map Prod.fst := outKeys_eq _
  rw [h]
  exact (nodup_keys_buildQuestionStats _).sublist
    ((List.filter_sublist _).map Prod.fst)

/-- Membership of an aggregate key in the metrics output, in canonical
form. -/
theorem mem_outKeys_iff (rows : List ScoredRow) (ns : ℕ) (a : AggKey) :
    a ∈ (compute_metrics rows ns).map summaryKeyOf ↔
      ((buildGroups rows).filter (fun g => aggOfKey g.1 = a) ≠ [] ∧
        ¬((statsOfGroups ((buildGroups rows).filter
            (fun g => aggOfKey g.1 = a))).num_samples = 0)) := by
  rw [show (compute_metrics rows ns).map summaryKeyOf =
      ((buildQuestionStats (buildGroups rows)).filter
        (fun aq => ¬(aq.2.num_samples = 0))).map Prod.fst
    from outKeys_eq _]
  constructor
  · intro h
    rcases List.mem_map.mp h with ⟨aq, haq, hfst⟩
    obtain ⟨a0, q0⟩ := aq
    rcases List.mem_filter.mp haq with ⟨hmem, hq0⟩
    simp only [decide_eq_true_eq] at hq0
    dsimp only at hfst hq0
    subst hfst
    obtain ⟨hne, hqe⟩ := mem_buildQuestionStats_facts hmem
    refine ⟨hne, ?_⟩
    rw [← hqe]
    exact hq0
  · rintro ⟨hne, hq0⟩
    have hfs : findStats (buildQuestionStats (buildGroups rows)) a =
        some (statsOfGroups ((buildGroups rows).filter
          (fun g => aggOfKey g.1 = a))) := by
      rw [findStats_buildQuestionStats, if_neg hne]
    have hmm : a ∈ (buildQuestionStats (buildGroups rows)).map Prod.fst := by
      rw [← findStats_isSome_iff, hfs]
      rfl
    rcases List.mem_map.mp hmm with ⟨aq, haq, hfst⟩
    obtain ⟨a0, q0⟩ := aq
    dsimp only at hfst
    subst hfst
    have hv := findStats_of_mem (nodup_keys_buildQuestionStats _) haq
    dsimp only at hv
    rw [hfs] at hv
    have hq0' : ¬(q0.num_samples = 0) := by
      rw [← Option.some_inj.mp hv]
      exact hq0
    refine List.mem_map.mpr ⟨(a0, q0), ?_, rfl⟩
    rw [List.mem_filter]
    refine ⟨haq, ?_⟩
    simpa using hq0'

/-- C1 is refuted: permuting the input records permutes the output rows, so
`compute_metrics` on a permuted list is not identical to `compute_metrics`
on the original list. -/
theorem C1_counterexample :
    [c1RowB, c1RowA].Perm [c1RowA, c1RowB] ∧
    compute_metrics [c1RowB, c1RowA] 1 ≠ compute_metrics [c1RowA, c1RowB] 1 := by
  constructor
  · exact List.Perm.swap c1RowA c1RowB []
  · have h1 : buildQuestionStats (buildGroups [c1RowA, c1RowB]) =
        [(("a", "m", "c"), ⟨1, 1, 1, 0, 0, 1, 1, 1, [], []⟩),
         (("b", "m", "c"), ⟨1, 1, 1, 0, 0, 1, 1, 1, [], []⟩)] := by decide
    have h2 : buildQuestionStats (buildGroups [c1RowB, c1RowA]) =
        [(("b", "m", "c"), ⟨1, 1, 1, 0, 0, 1, 1, 1, [], []⟩),
         (("a", "m", "c"), ⟨1, 1, 1, 0, 0, 1, 1, 1, [], []⟩)] := by decide
    have e1 : compute_metrics [c1RowA, c1RowB] 1 =
        [mkSummaryRow ("a", "m", "c") ⟨1, 1, 1, 0, 0, 1, 1, 1, [], []⟩,
         mkSummaryRow ("b", "m", "c") ⟨1, 1, 1, 0, 0, 1, 1, 1, [], []⟩] := by
      unfold compute_metrics
      rw [h1, List.filterMap_cons]
      dsimp only
      rw [if_neg (by decide : ¬((1 : ℕ) = 0))]
      dsimp only
      rw [List.filterMap_cons]
      dsimp only
      rw [if_neg (by decide : ¬((1 : ℕ) = 0))]
      dsimp only
      rw [List.filterMap_nil]
    have e2 : compute_metrics [c1RowB, c1RowA] 1 =
        [mkSummaryRow ("b", "m", "c") ⟨1, 1, 1, 0, 0, 1, 1, 1, [], []⟩,
         mkSummaryRow ("a", "m", "c") ⟨1, 1, 1, 0, 0, 1, 1, 1, [], []⟩] := by
      unfold compute_metrics
      rw [h2, List.filterMap_cons]
      dsimp only
      rw [if_neg (by decide : ¬((1 : ℕ) = 0))]
      dsimp only
      rw [List.filterMap_cons]
      dsimp only
      rw [if_neg (by decide : ¬((1 : ℕ) = 0))]
      dsimp only
      rw [List.filterMap_nil]
    rw [e1, e2]
    intro heq
    injection heq with hhd htl
    have hd := congrArg SummaryRow.dataset hhd
    rw [(mkSummaryRow_fields ("b", "m", "c") ⟨1, 1, 1, 0, 0, 1, 1, 1, [], []⟩).1,
      (mkSummaryRow_fields ("a", "m", "c") ⟨1, 1, 1, 0, 0, 1, 1, 1, [], []⟩).1] at hd
    exact absurd hd (by decide)

/-- C1 (amended): `compute_metrics` is order-independent up to reordering of
the output rows and of the label dictionaries: over a permutation of the
input records with consistent per-question labels, the aggregate keys of the
output agree as multisets, and the summary row found for any aggregate key
is equivalent (equal scalar fields, equal label-accuracy dictionaries as
maps). -/
theorem C1_order_invariance (rows1 rows2 : List ScoredRow)
    (hperm : rows2.Perm rows1) (hagree : labelsAgree rows1) (ns : ℕ)
    (a : AggKey) :
    ((compute_metrics rows2 ns).map summaryKeyOf).Perm
      ((compute_metrics rows1 ns).map summaryKeyOf) ∧
    optionalRowEquiv (lookupSummary (compute_metrics rows2 ns) a)
      (lookupSummary (compute_metrics rows1 ns) a) := by
  have hsubj : ∀ k : GroupKey,
      bucketSubject (bucketIn rows2 k) = bucketSubject (bucketIn rows1 k) :=
    fun k => (bucketLabel_agree hperm hagree k).1
  have hdiffl : ∀ k : GroupKey,
      bucketDifficulty (bucketIn rows2 k) = bucketDifficulty (bucketIn rows1 k) :=
    fun k => (bucketLabel_agree hperm hagree k).2
  constructor
  · rw [List.perm_ext_iff_of_nodup (nodup_outKeys rows2 ns) (nodup_outKeys rows1 ns)]
    intro x
    rw [mem_outKeys_iff rows2 ns x, mem_outKeys_iff rows1 ns x,
      gsa_ne_nil_iff rows2 x, gsa_ne_nil_iff rows1 x]
    obtain ⟨_, _, e3, _, _, _, _, _⟩ := statsOfGroups_perm rows1 rows2 hperm x
    rw [e3, (hperm.map aggKeyOf).mem_iff]
  · rw [lookupSummary_compute_metrics rows2 ns a,
      lookupSummary_compute_metrics rows1 ns a,
      findStats_buildQuestionStats, findStats_buildQuestionStats]
    by_cases hne2 : (buildGroups rows2).filter (fun g => aggOfKey g.1 = a) = []
    · have hne1 : (buildGroups rows1).filter (fun g => aggOfKey g.1 = a) = [] := by
        by_contra hc
        have hx : (buildGroups rows2).filter (fun g => aggOfKey g.1 = a) ≠ [] := by
          rw [gsa_ne_nil_iff rows2 a]
          exact (hperm.map aggKeyOf).mem_iff.mpr ((gsa_ne_nil_iff rows1 a).mp hc)
        exact hx hne2
      rw [if_pos hne2, if_pos hne1]
      exact trivial
    · have hne1 : (buildGroups rows1).filter (fun g => aggOfKey g.1 = a) ≠ [] := by
        rw [gsa_ne_nil_iff rows1 a]
        exact (hperm.map aggKeyOf).mem_iff.mp ((gsa_ne_nil_iff rows2 a).mp hne2)
      rw [if_neg hne2, if_neg hne1]
      dsimp only
      obtain ⟨e1, e2, e3, e4, e5, e6, e7, e8⟩ := statsOfGroups_perm rows1 rows2 hperm a
      by_cases hz : (statsOfGroups ((buildGroups rows2).filter
          (fun g => aggOfKey g.1 = a))).num_samples = 0
      · rw [if_pos hz, if_pos (by rw [← e3]; exact hz)]
        exact trivial
      · have hz1 : ¬((statsOfGroups ((buildGroups rows1).filter
            (fun g => aggOfKey g.1 = a))).num_samples = 0) := by
          rw [← e3]
          exact hz
        rw [if_neg hz, if_neg hz1]
        show SummaryRowEquiv _ _
        obtain ⟨_, _, _, _, _, _, _, _, s9a, s10a⟩ := statsOfGroups_fields
          ((buildGroups rows2).filter (fun g => aggOfKey g.1 = a))
        obtain ⟨_, _, _, _, _, _, _, _, s9b, s10b⟩ := statsOfGroups_fields
          ((buildGroups rows1).filter (fun g => aggOfKey g.1 = a))
        apply summaryRowEquiv_mk e1 e2 e3 e4 e5 e6 e7 e8
        · intro lab
          have hnd2 : ((statsOfGroups ((buildGroups rows2).filter
              (fun g => aggOfKey g.1 = a))).subjects.map Prod.fst).Nodup := by
            rw [s9a]
            exact nodup_keys_foldLabel bucketSubject _ [] (by simp)
          have hnd1 : ((statsOfGroups ((buildGroups rows1).filter
              (fun g => aggOfKey g.1 = a))).subjects.map Prod.fst).Nodup := by
            rw [s9b]
            exact nodup_keys_foldLabel bucketSubject _ [] (by simp)
          rw [alistLookup_labelAccuracies _ hnd2 lab,
            alistLookup_labelAccuracies _ hnd1 lab, s9a, s9b,
            foldLabel_lookup_perm hperm a bucketSubject hsubj lab]
        · intro lab
          have hnd2 : ((statsOfGroups ((buildGroups rows2).filter
              (fun g => aggOfKey g.1 = a))).difficulties.map Prod.fst).Nodup := by
            rw [s10a]
            exact nodup_keys_foldLabel bucketDifficulty _ [] (by simp)
          have hnd1 : ((statsOfGroups ((buildGroups rows1).filter
              (fun g => aggOfKey g.1 = a))).difficulties.map Prod.fst).Nodup := by
            rw [s10b]
            exact nodup_keys_foldLabel bucketDifficulty _ [] (by simp)
          rw [alistLookup_labelAccuracies _ hnd2 lab,
            alistLookup_labelAccuracies _ hnd1 lab, s10a, s10b,
            foldLabel_lookup_perm hperm a bucketDifficulty hdiffl lab]

/-- Witness for the amended C1 at a concrete two-record permutation. -/
theorem C1_order_invariance_witness :
    [c1RowB, c1RowA].Perm [c1RowA, c1RowB] ∧ labelsAgree [c1RowA, c1RowB] ∧
    (((compute_metrics [c1RowB, c1RowA] 1).map summaryKeyOf).Perm
        ((compute_metrics [c1RowA, c1RowB] 1).map summaryKeyOf) ∧
      optionalRowEquiv
        (lookupSummary (compute_metrics [c1RowB, c1RowA] 1) ("a", "m", "c"))
        (lookupSummary (compute_metrics [c1RowA, c1RowB] 1) ("a", "m", "c"))) := by
  have hperm : [c1RowB, c1RowA].Perm [c1RowA, c1RowB] :=
    List.Perm.swap c1RowA c1RowB []
  have hagree : labelsAgree [c1RowA, c1RowB] := by
    unfold labelsAgree
    decide
  exact ⟨hperm, hagree,
    C1_order_invariance [c1RowA, c1RowB] [c1RowB, c1RowA] hperm hagree 1
      ("a", "m", "c")⟩

end PersonaEval
